import Mathlib

/-!
Verification of the production-line balancing core and of the data-access /
AI-configuration utilities of the Doctor-at-home repository.

The production-line core (station registry, CPM scheduler, bottleneck and
metrics analyzer, workforce allocator) is not shipped in the repository's
source tree; it is modelled here faithfully from the specification's own
algorithmic description.  The Firestore and Gemini utilities are embedded
from `firebase_utils.py` and `gemini_utils.py`.
-/

/-- Decidable equality on `Except`, needed to state concrete facts about
the registry's result. -/
instance {ε α : Type} [DecidableEq ε] [DecidableEq α] : DecidableEq (Except ε α) :=
  fun x y =>
    match x, y with
    | Except.ok a, Except.ok b =>
      if h : a = b then isTrue (congrArg Except.ok h)
      else isFalse (fun hc => h (Except.ok.inj hc))
    | Except.error a, Except.error b =>
      if h : a = b then isTrue (congrArg Except.error h)
      else isFalse (fun hc => h (Except.error.inj hc))
    | Except.ok _, Except.error _ => isFalse (fun hc => Except.noConfusion hc)
    | Except.error _, Except.ok _ => isFalse (fun hc => Except.noConfusion hc)

namespace LineCore

/-- Modelled from the spec: boolean alphabetical comparison on strings,
implemented as the usual lexicographic comparison of character codes.
It backs the deterministic sorting of `critical_station_names`. -/
def lexLe : List Char → List Char → Bool
  | [], _ => true
  | _ :: _, [] => false
  | c :: cs, d :: ds =>
    if c.toNat < d.toNat then true
    else if d.toNat < c.toNat then false
    else lexLe cs ds

/-- Modelled from the spec: alphabetical order on station names. -/
def strLe (a b : String) : Bool :=
  lexLe a.data b.data

/-- Stable insertion of one element into a list sorted by `le`. -/
def insertSorted (le : α → α → Bool) (a : α) : List α → List α
  | [] => [a]
  | b :: l => if le a b then a :: b :: l else b :: insertSorted le a l

/-- Stable insertion sort by an arbitrary boolean comparison. -/
def sortBy (le : α → α → Bool) : List α → List α
  | [] => []
  | a :: l => insertSorted le a (sortBy le l)

/-- Modelled from the spec: a `Station` record — the missing source's data
model.  `name`, `processing_time` (minutes per unit, a positive rational
standing for the spec's positive real) and the optional `predecessor_name`
are caller-supplied; the six derived fields are populated by the CPM
scheduler and default to zero / `false` before scheduling. -/
structure Station where
  name : String
  processing_time : ℚ
  predecessor_name : Option String := none
  earliest_start : ℚ := 0
  earliest_finish : ℚ := 0
  latest_start : ℚ := 0
  latest_finish : ℚ := 0
  slack : ℚ := 0
  is_critical : Bool := false
deriving Repr, DecidableEq

/-- Modelled from the spec: the validated, indexed graph produced by the
registry.  Its station list is already in the topological order obtained
from the registry's cycle check. -/
structure StationGraph where
  stations : List Station
deriving Repr, DecidableEq

/-- Modelled from the spec: the scheduler's result snapshot. -/
structure ScheduleResult where
  stations : List Station
  critical_path_length : ℚ
  critical_station_names : List String
deriving Repr, DecidableEq

/-- Modelled from the spec: the analyzer's metrics snapshot. -/
structure Metrics where
  bottleneck_name : String
  bottleneck_time : ℚ
  cycle_time : ℚ
  production_rate : ℚ
  estimated_total_time : ℚ
  efficiency_percent : ℚ
  idle_time_total : ℚ
deriving Repr, DecidableEq

/-- Modelled from the spec: the registry's error taxonomy.
`ValidationError` for malformed input, `CycleDetected` for a predecessor
cycle found by the topological check. -/
inductive BuildError where
  | ValidationError
  | CycleDetected
deriving Repr, DecidableEq

/-- Static (caller-supplied) part of a station: name, processing time and
predecessor reference.  The scheduler is a function of this data only. -/
def statPre (s : Station) : String × ℚ × Option String :=
  (s.name, s.processing_time, s.predecessor_name)

/-- Static part of a station together with the forward-pass results. -/
def statFwd (s : Station) : (String × ℚ × Option String) × ℚ × ℚ :=
  (statPre s, s.earliest_start, s.earliest_finish)

/-- First station of the list carrying the given name, if any. -/
def findStation (n : String) : List Station → Option Station
  | [] => none
  | t :: ts => if t.name = n then some t else findStation n ts

/-- Earliest finish of the named station, looked up among the already
scheduled stations. -/
def lookupEF (acc : List Station) (n : String) : Option ℚ :=
  (findStation n acc).map (fun t => t.earliest_finish)

/-- Latest start of the named station, looked up among the already
scheduled stations. -/
def lookupLS (acc : List Station) (n : String) : Option ℚ :=
  (findStation n acc).map (fun t => t.latest_start)

/-- Generic accumulating fold in which each visited element is turned into
one output element computed from the output built so far.  Both CPM passes
have this shape. -/
def foldBuild (mk : List α → β → α) (acc : List α) (l : List β) : List α :=
  l.foldl (fun a b => a ++ [mk a b]) acc

/-- Modelled from the spec: one forward-pass step.
`earliest_start = predecessor.earliest_finish if predecessor exists else 0`;
`earliest_finish = earliest_start + processing_time`. -/
def fwdMk (acc : List Station) (s : Station) : Station :=
  let es : ℚ :=
    match s.predecessor_name with
    | none => 0
    | some p => (lookupEF acc p).getD 0
  { name := s.name, processing_time := s.processing_time,
    predecessor_name := s.predecessor_name,
    earliest_start := es, earliest_finish := es + s.processing_time }

/-- Modelled from the spec: the forward pass, visiting the stations in
topological order. -/
def forwardPass (order : List Station) : List Station :=
  foldBuild fwdMk [] order

/-- Modelled from the spec: `critical_path_length = max(earliest_finish)`
over all stations, `0` for the empty station set. -/
def criticalPathLength (scheduled : List Station) : ℚ :=
  (scheduled.map (fun s => s.earliest_finish)).foldl max 0

/-- Direct successors of the named station: every station whose
predecessor reference equals this name. -/
def successorsOf (all : List Station) (n : String) : List Station :=
  all.filter (fun t => t.predecessor_name = some n)

/-- Modelled from the spec: one backward-pass step.
`latest_finish = min(successor.latest_start for successor in successors)
if successors else critical_path_length`;
`latest_start = latest_finish - processing_time`;
`slack = latest_start - earliest_start`;
`is_critical = abs(slack) < 1e-6`. -/
def bwdMk (all : List Station) (cpl : ℚ) (acc : List Station) (s : Station) : Station :=
  let lf : ℚ :=
    match successorsOf all s.name with
    | [] => cpl
    | t :: ts =>
      (ts.map (fun u => (lookupLS acc u.name).getD 0)).foldl min
        ((lookupLS acc t.name).getD 0)
  let ls := lf - s.processing_time
  let sl := ls - s.earliest_start
  { s with
    latest_finish := lf, latest_start := ls, slack := sl,
    is_critical := decide (abs sl < 1 / 1000000) }

/-- Modelled from the spec: the backward pass, visiting the stations in
reverse topological order. -/
def backwardPass (all : List Station) (cpl : ℚ) : List Station :=
  (foldBuild (bwdMk all cpl) [] all.reverse).reverse

/-- Modelled from the spec: `schedule(graph) -> ScheduleResult`, a pure
function running the forward pass, deriving the critical-path length, then
running the backward pass, and listing the critical station names
alphabetically sorted. -/
def schedule (g : StationGraph) : ScheduleResult :=
  let fwd := forwardPass g.stations
  let cpl := criticalPathLength fwd
  let full := backwardPass fwd cpl
  { stations := full,
    critical_path_length := cpl,
    critical_station_names :=
      sortBy strLe ((full.filter (fun s => s.is_critical)).map (fun s => s.name)) }

/-- All strings of the list pairwise distinct. -/
def allDistinct : List String → Bool
  | [] => true
  | x :: xs => (!xs.contains x) && allDistinct xs

/-- Modelled from the spec: per-station validation — nonempty name,
positive processing time, predecessor referencing an existing station. -/
def validStation (raw : List Station) (s : Station) : Bool :=
  (!(s.name = "" : Bool)) && decide (0 < s.processing_time) &&
    (match s.predecessor_name with
     | none => true
     | some p => raw.any (fun t => t.name = p))

/-- Modelled from the spec: registry validation — every station valid and
names unique under case-insensitive comparison. -/
def validateStations (raw : List Station) : Bool :=
  raw.all (validStation raw) && allDistinct (raw.map (fun s => s.name.toLower))

/-- A station is ready for removal in the topological pass when it has no
predecessor or its predecessor was already removed. -/
def isReady (done : List String) (s : Station) : Bool :=
  match s.predecessor_name with
  | none => true
  | some p => done.contains p

/-- Modelled from the spec: the topological check by repeated removal of
zero-in-degree stations.  Returns the topological order, or `none` when a
round removes nothing while stations remain — a cycle. -/
def kahnAux : Nat → List Station → List String → Option (List Station)
  | 0, pending, _ => if pending.isEmpty then some [] else none
  | fuel + 1, pending, done =>
    if pending.isEmpty then some []
    else
      let ready := pending.filter (isReady done)
      if ready.isEmpty then none
      else
        match kahnAux fuel (pending.filter (fun s => !isReady done s))
            (done ++ ready.map (fun s => s.name)) with
        | none => none
        | some rest => some (ready ++ rest)

/-- Modelled from the spec: `build(raw_stations) -> StationGraph`, failing
with `ValidationError` on malformed input and with `CycleDetected` when the
topological pass leaves stations unprocessed. -/
def build (raw : List Station) : Except BuildError StationGraph :=
  if validateStations raw then
    match kahnAux raw.length raw [] with
    | none => Except.error BuildError.CycleDetected
    | some order => Except.ok ⟨order⟩
  else
    Except.error BuildError.ValidationError

/-- Predecessor name of the station carrying the given name. -/
def predStep (raw : List Station) (n : String) : Option String :=
  (findStation n raw).bind (fun s => s.predecessor_name)

/-- Iterated predecessor lookup. -/
def predIterate (raw : List Station) : Nat → String → Option String
  | 0, n => some n
  | k + 1, n => (predStep raw n).bind (predIterate raw k)

/-- The raw predecessor references contain a cycle: following predecessor
links from some station's name returns to that very name. -/
def hasCycle (raw : List Station) : Prop :=
  ∃ s ∈ raw, ∃ k, k ≤ raw.length ∧ predIterate raw (k + 1) s.name = some s.name

instance (raw : List Station) : Decidable (hasCycle raw) := by
  unfold hasCycle; infer_instance

/-- One step of the bottleneck scan: keep the current best, replacing it
only on a strictly larger processing time — so ties keep the earlier
station. -/
def bottleneckStep (acc : Option Station) (s : Station) : Option Station :=
  match acc with
  | none => some s
  | some b => if b.processing_time < s.processing_time then some s else some b

/-- Modelled from the spec: the bottleneck — the station with the maximum
processing time, ties broken by first occurrence in input order.  `none`
only for the empty station set. -/
def bottleneckOf (l : List Station) : Option Station :=
  l.foldl bottleneckStep none

/-- Modelled from the spec: `analyze(scheduled_graph, units_to_produce)`.
`cycle_time` is the bottleneck's processing time;
`production_rate = 60 / cycle_time` when positive, else `0`;
`estimated_total_time = critical_path_length + (units - 1) * cycle_time`
when both are positive, else `critical_path_length`;
`efficiency_percent = sum(processing_time) / (count * cycle_time) * 100`
guarded against a zero denominator; `idle_time_total` sums the slack of the
non-critical stations. -/
def analyze (res : ScheduleResult) (units_to_produce : Nat) : Metrics :=
  let sts := res.stations
  let idle := ((sts.filter (fun s => !s.is_critical)).map (fun s => s.slack)).sum
  match bottleneckOf sts with
  | none =>
    { bottleneck_name := "", bottleneck_time := 0, cycle_time := 0,
      production_rate := 0, estimated_total_time := res.critical_path_length,
      efficiency_percent := 0, idle_time_total := idle }
  | some b =>
    let ct := b.processing_time
    { bottleneck_name := b.name, bottleneck_time := ct, cycle_time := ct,
      production_rate := if 0 < ct then 60 / ct else 0,
      estimated_total_time :=
        if 0 < units_to_produce ∧ 0 < ct then
          res.critical_path_length + ((units_to_produce : ℚ) - 1) * ct
        else res.critical_path_length,
      efficiency_percent :=
        if ((sts.length : ℚ) * ct) ≠ 0 then
          ((sts.map (fun s => s.processing_time)).sum / ((sts.length : ℚ) * ct)) * 100
        else 0,
      idle_time_total := idle }

/-- Modelled from the spec: a station's ideal (real-valued) share of the
workforce, `processing_time / total_time * available_workers`. -/
def idealShare (total : ℚ) (w : Nat) (s : Station) : ℚ :=
  s.processing_time / total * w

/-- Floor of the ideal share — the workers assigned directly. -/
def baseShare (total : ℚ) (w : Nat) (s : Station) : Nat :=
  (⌊idealShare total w s⌋).toNat

/-- Fractional remainder of the ideal share. -/
def fracShare (total : ℚ) (w : Nat) (s : Station) : ℚ :=
  idealShare total w s - (baseShare total w s : ℚ)

/-- Ordering for the largest-remainder distribution: descending fractional
remainder, ties broken by original input position. -/
def remainderOrder (total : ℚ) (w : Nat) (a b : Nat × Station) : Bool :=
  decide (fracShare total w b.2 < fracShare total w a.2 ∨
    (fracShare total w a.2 = fracShare total w b.2 ∧ a.1 ≤ b.1))

/-- Modelled from the spec: `allocate(scheduled_graph, available_workers)`
by the largest-remainder (Hamilton) method.  Degenerate configurations
(zero total time or zero workers) allocate `0` everywhere; otherwise each
station gets the floor of its ideal share and the remaining workers go one
each to the stations with the largest fractional remainders. -/
def allocate (stations : List Station) (available_workers : Nat) : List (String × Nat) :=
  let total := (stations.map (fun s => s.processing_time)).sum
  if total = 0 ∨ available_workers = 0 then
    stations.map (fun s => (s.name, 0))
  else
    let baseSum := (stations.map (baseShare total available_workers)).sum
    let remaining := available_workers - baseSum
    let sorted := sortBy (remainderOrder total available_workers) stations.enum
    sorted.enum.map
      (fun q =>
        (q.2.2.name,
          baseShare total available_workers q.2.2 + if q.1 < remaining then 1 else 0))

/-- The list's station names, in order. -/
def namesOf (l : List Station) : List String :=
  l.map (fun s => s.name)

/-- The station names are pairwise distinct. -/
def NodupNames (l : List Station) : Prop :=
  (namesOf l).Nodup

/-- The list is topologically sorted: every predecessor reference points at
a station appearing strictly earlier in the list. -/
def TopoSorted (l : List Station) : Prop :=
  ∀ (i : Nat) (p : String) (s : Station), l[i]? = some s → s.predecessor_name = some p →
    ∃ (j : Nat) (s' : Station), j < i ∧ l[j]? = some s' ∧ s'.name = p

/-- A validated station list in topological order, as the registry hands it
to the scheduler: distinct names, positive processing times, predecessors
appearing earlier in the list. -/
def ValidOrder (l : List Station) : Prop :=
  NodupNames l ∧ (∀ s ∈ l, 0 < s.processing_time) ∧ TopoSorted l

/-- The concrete five-station chain of the spec's test scenario. -/
def demoStations : List Station :=
  [{ name := "Cut", processing_time := 2 },
   { name := "Bend", processing_time := 3, predecessor_name := some "Cut" },
   { name := "Assemble", processing_time := 5, predecessor_name := some "Bend" },
   { name := "Paint", processing_time := 4, predecessor_name := some "Assemble" },
   { name := "Pack", processing_time := 3/2, predecessor_name := some "Paint" }]

/-- A minimal valid two-station chain, used to instantiate the universally
quantified theorems at a concrete input. -/
def twoChain : List Station :=
  [{ name := "A", processing_time := 2 },
   { name := "B", processing_time := 3, predecessor_name := some "A" }]

/-- The spec's cycle-rejection example: station `A`'s predecessor is `B`
and station `B`'s predecessor is `A`. -/
def cyclePair : List Station :=
  [{ name := "A", processing_time := 1, predecessor_name := some "B" },
   { name := "B", processing_time := 1, predecessor_name := some "A" }]

end LineCore

namespace SaludIA

/-- Value stored in a Firestore document field, as used by the app: Python
`None`, a string, a number, or a list of strings. -/
inductive FSValue where
  | null
  | str (v : String)
  | num (v : ℚ)
  | strList (v : List String)
deriving Repr, DecidableEq

/-- Condition under which `save_consultation` drops a field: the Python
filter keeps `v` only when `v is not None and v != ''`, so a field is
dropped exactly when it is `None` or the empty string (a non-string value
never equals `''`). -/
def isDropped : FSValue → Bool
  | FSValue.null => true
  | FSValue.str v => v = ""
  | FSValue.num _ => false
  | FSValue.strList _ => false

/-- A Firestore document: an ordered association of field names to values,
as a Python dict. -/
abbrev FSDoc := List (String × FSValue)

/-- The Firestore database: documents addressed by their path segments. -/
structure Firestore where
  docs : List (List String × FSDoc)
deriving Repr, DecidableEq

/-- Python dict assignment `d[k] = v`: replaces the value in place when the
key exists, appends the pair otherwise. -/
def dictSet (d : FSDoc) (k : String) (v : FSValue) : FSDoc :=
  if d.any (fun p => p.1 = k) then
    d.map (fun p => if p.1 = k then (k, v) else p)
  else
    d ++ [(k, v)]

/-- Firestore `document(path).set(data)`: replaces the document at the
path, creating it when absent. -/
def fsSet (fs : Firestore) (path : List String) (data : FSDoc) : Firestore :=
  ⟨fs.docs.filter (fun e => e.1 ≠ path) ++ [(path, data)]⟩

/-- Document stored at a path, if any. -/
def fsGet (fs : Firestore) (path : List String) : Option FSDoc :=
  (fs.docs.find? (fun e => e.1 = path)).map (fun e => e.2)

/-- A UTC wall-clock instant, the result of `datetime.now(timezone.utc)`. -/
structure UTCTime where
  year : Nat
  month : Nat
  day : Nat
  hour : Nat
  minute : Nat
  second : Nat
deriving Repr, DecidableEq

/-- Two-digit zero padding, as `strftime` renders date components. -/
def pad2 (n : Nat) : String :=
  if n < 10 then "0" ++ toString n else toString n

/-- Four-digit zero padding for the year. -/
def pad4 (n : Nat) : String :=
  if n < 10 then "000" ++ toString n
  else if n < 100 then "00" ++ toString n
  else if n < 1000 then "0" ++ toString n
  else toString n

/-- The document id `timestamp.strftime('%Y-%m-%d_%H-%M-%S')`. -/
def strftimeId (t : UTCTime) : String :=
  pad4 t.year ++ "-" ++ pad2 t.month ++ "-" ++ pad2 t.day ++ "_" ++
    pad2 t.hour ++ "-" ++ pad2 t.minute ++ "-" ++ pad2 t.second

/-- The field value `timestamp.isoformat()` of an aware UTC datetime. -/
def isoformatUTC (t : UTCTime) : String :=
  pad4 t.year ++ "-" ++ pad2 t.month ++ "-" ++ pad2 t.day ++ "T" ++
    pad2 t.hour ++ ":" ++ pad2 t.minute ++ ":" ++ pad2 t.second ++ "+00:00"

/-- Path of the consultations sub-collection of one patient. -/
def consultationsPath (physician_email patient_id : String) : List String :=
  ["physicians", physician_email, "patients", patient_id, "consultations"]

/-- Embedded from `firebase_utils.save_consultation`: with no database
client it returns `None` and writes nothing; otherwise it stamps the data
with `timestamp_utc`, strips fields that are `None` or the empty string,
writes the cleaned document under the id
`timestamp.strftime('%Y-%m-%d_%H-%M-%S')` and returns that id.  The wall
clock is passed explicitly; the result pairs the database state after the
call with the returned id. -/
def save_consultation (db : Option Firestore) (now : UTCTime)
    (physician_email patient_id : String) (consultation_data : FSDoc) :
    Option Firestore × Option String :=
  match db with
  | none => (none, none)
  | some fs =>
    let doc_id := strftimeId now
    let stamped := dictSet consultation_data "timestamp_utc" (FSValue.str (isoformatUTC now))
    let clean_data := stamped.filter (fun p => !isDropped p.2)
    (some (fsSet fs (consultationsPath physician_email patient_id ++ [doc_id]) clean_data),
      some doc_id)

/-- Embedded from `firebase_utils.get_physician_patients`: with no database
client it returns the empty list; otherwise it streams the documents of the
physician's `patients` collection as `(id, data)` records. -/
def get_physician_patients (db : Option Firestore) (physician_email : String) :
    List (String × FSDoc) :=
  match db with
  | none => []
  | some fs =>
    (fs.docs.filter
        (fun e => e.1.take 3 = ["physicians", physician_email, "patients"] ∧
          e.1.length = 4)).map
      (fun e => (e.1.getD 3 "", e.2))

/-- String value of a document field, the empty string when absent or not a
string — used only to order the history by `timestamp_utc`. -/
def fieldStr (d : FSDoc) (k : String) : String :=
  match (d.find? (fun p => p.1 = k)).map (fun p => p.2) with
  | some (FSValue.str v) => v
  | _ => ""

/-- Embedded from `firebase_utils.load_patient_history`: with no database
client it returns an empty DataFrame, modelled as the empty record list;
otherwise it returns the patient's consultations as `(id, data)` records
ordered by `timestamp_utc` descending. -/
def load_patient_history (db : Option Firestore) (physician_email patient_id : String) :
    List (String × FSDoc) :=
  match db with
  | none => []
  | some fs =>
    let path := consultationsPath physician_email patient_id
    let records :=
      (fs.docs.filter (fun e => e.1.take 5 = path ∧ e.1.length = 6)).map
        (fun e => (e.1.getD 5 "", e.2))
    LineCore.sortBy
      (fun a b => LineCore.lexLe (fieldStr b.2 "timestamp_utc").data
        (fieldStr a.2 "timestamp_utc").data)
      records

/-- Errors `GeminiUtils.__init__` can raise: the `ValueError` for a missing
or empty `gemini_api_key` secret, or the generic exception when no model of
the preference list initializes. -/
inductive GeminiError where
  | valueError
  | noModelError
deriving Repr, DecidableEq

/-- State of the `google.generativeai` module: the API key passed to
`genai.configure`, if any, and which model names currently initialize
successfully (external availability). -/
structure GenaiState where
  configuredKey : Option String
  available : String → Bool

/-- A successfully constructed `GeminiUtils` object: its stored API key and
selected model name. -/
structure GeminiUtilsState where
  api_key : String
  model : String
deriving Repr, DecidableEq

/-- Embedded from `gemini_utils.GeminiUtils._get_available_model`: the 2025
model preference list, newest first. -/
def model_list : List String :=
  ["gemini-2.0-flash-exp", "gemini-1.5-flash-latest", "gemini-1.5-pro-latest",
   "gemini-1.5-flash", "gemini-1.5-pro"]

/-- Embedded from `gemini_utils.GeminiUtils._get_available_model`: first
model of the preference list that initializes. -/
def get_available_model (g : GenaiState) : Option String :=
  model_list.find? g.available

/-- Embedded from `gemini_utils.GeminiUtils.__init__`: reads the
`gemini_api_key` Streamlit secret (`none` when absent), raises `ValueError`
when it is missing or empty — before any `genai.configure` call — and
otherwise configures the API and selects the first available model.  The
result pairs the constructor outcome with the `genai` module state after
the call. -/
def GeminiUtils_init (secret : Option String) (g : GenaiState) :
    Except GeminiError GeminiUtilsState × GenaiState :=
  match secret with
  | none => (Except.error GeminiError.valueError, g)
  | some key =>
    if key = "" then (Except.error GeminiError.valueError, g)
    else
      let g' := { g with configuredKey := some key }
      match get_available_model g' with
      | some m => (Except.ok ⟨key, m⟩, g')
      | none => (Except.error GeminiError.noModelError, g')

/-- A concrete `genai` module state: nothing configured, no model
available.  Used to instantiate the quantified theorems. -/
def demoGenai : GenaiState :=
  { configuredKey := none, available := fun _ => false }

end SaludIA

namespace LineCore

theorem foldBuild_cons (mk : List α → β → α) (acc : List α) (b : β) (l : List β) :
    foldBuild mk acc (b :: l) = foldBuild mk (acc ++ [mk acc b]) l := rfl

theorem foldBuild_append_arg (mk : List α → β → α) (acc : List α) (l₁ l₂ : List β) :
    foldBuild mk acc (l₁ ++ l₂) = foldBuild mk (foldBuild mk acc l₁) l₂ := by
  simp [foldBuild, List.foldl_append]

theorem foldBuild_prefix (mk : List α → β → α) (l : List β) :
    ∀ acc, ∃ out, foldBuild mk acc l = acc ++ out := by
  induction l with
  | nil => exact fun acc => ⟨[], by simp [foldBuild]⟩
  | cons b l ih =>
    intro acc
    obtain ⟨out, h⟩ := ih (acc ++ [mk acc b])
    exact ⟨mk acc b :: out, by rw [foldBuild_cons, h]; simp⟩

theorem foldBuild_length (mk : List α → β → α) (l : List β) :
    ∀ acc, (foldBuild mk acc l).length = acc.length + l.length := by
  induction l with
  | nil => intro acc; simp [foldBuild]
  | cons b l ih =>
    intro acc
    rw [foldBuild_cons, ih]
    simp; omega

theorem foldBuild_getElem (mk : List α → β → α) (l : List β) (i : Nat) (hi : i < l.length) :
    (foldBuild mk [] l)[i]? = some (mk (foldBuild mk [] (l.take i)) l[i]) := by
  have hsplit : l.take (i + 1) ++ l.drop (i + 1) = l := List.take_append_drop _ _
  have htake : l.take (i + 1) = l.take i ++ [l[i]] := by
    rw [List.take_succ, List.getElem?_eq_getElem hi]
    rfl
  conv_lhs => rw [← hsplit, foldBuild_append_arg, htake, foldBuild_append_arg]
  obtain ⟨out, hout⟩ :=
    foldBuild_prefix mk (l.drop (i + 1))
      (foldBuild mk (foldBuild mk [] (l.take i)) [l[i]])
  rw [hout]
  have hstep : foldBuild mk (foldBuild mk [] (l.take i)) [l[i]] =
      foldBuild mk [] (l.take i) ++ [mk (foldBuild mk [] (l.take i)) l[i]] := rfl
  have hA : (foldBuild mk [] (l.take i)).length = i := by
    rw [foldBuild_length]
    simp [List.length_take]
    omega
  rw [hstep, List.append_assoc, List.getElem?_append]
  rw [if_neg (by omega)]
  rw [hA, Nat.sub_self]
  simp

theorem foldBuild_map_of_proj (mk : List α → β → α) (f : α → γ) (g : β → γ)
    (hproj : ∀ a b, f (mk a b) = g b) (l : List β) :
    ∀ acc, (foldBuild mk acc l).map f = acc.map f ++ l.map g := by
  induction l with
  | nil => intro acc; simp [foldBuild]
  | cons b l ih =>
    intro acc
    rw [foldBuild_cons, ih]
    simp [hproj]

theorem foldBuild_mem (mk : List α → β → α) (l : List β) :
    ∀ acc a, a ∈ foldBuild mk acc l → a ∈ acc ∨ ∃ c b, a = mk c b := by
  induction l with
  | nil => intro acc a ha; exact Or.inl (by simpa [foldBuild] using ha)
  | cons b l ih =>
    intro acc a ha
    rw [foldBuild_cons] at ha
    rcases ih _ a ha with h | h
    · rcases List.mem_append.mp h with h' | h'
      · exact Or.inl h'
      · exact Or.inr ⟨acc, b, List.mem_singleton.mp h'⟩
    · exact Or.inr h

theorem statPre_fwdMk (acc : List Station) (s : Station) :
    statPre (fwdMk acc s) = statPre s := rfl

theorem statFwd_bwdMk (all : List Station) (cpl : ℚ) (acc : List Station) (s : Station) :
    statFwd (bwdMk all cpl acc s) = statFwd s := rfl

theorem forwardPass_map_statPre (order : List Station) :
    (forwardPass order).map statPre = order.map statPre := by
  have := foldBuild_map_of_proj fwdMk statPre statPre statPre_fwdMk order []
  simpa [forwardPass] using this

theorem backwardPass_map_statFwd (all : List Station) (cpl : ℚ) :
    (backwardPass all cpl).map statFwd = all.map statFwd := by
  have := foldBuild_map_of_proj (bwdMk all cpl) statFwd statFwd
    (statFwd_bwdMk all cpl) all.reverse []
  rw [backwardPass, List.map_reverse, this]
  simp

theorem statPre_from_statFwd (l : List Station) :
    l.map statPre = (l.map statFwd).map Prod.fst := by
  rw [List.map_map]
  rfl

theorem schedule_map_statPre (order : List Station) :
    (schedule ⟨order⟩).stations.map statPre = order.map statPre := by
  simp only [schedule]
  rw [statPre_from_statFwd, backwardPass_map_statFwd, ← statPre_from_statFwd,
    forwardPass_map_statPre]

theorem fwdMk_congr (acc : List Station) {s₁ s₂ : Station}
    (h : statPre s₁ = statPre s₂) : fwdMk acc s₁ = fwdMk acc s₂ := by
  cases s₁
  cases s₂
  simp only [statPre, Prod.mk.injEq] at h
  obtain ⟨h1, h2, h3⟩ := h
  subst h1; subst h2; subst h3
  rfl

theorem forwardPass_congr_aux :
    ∀ {l₁ l₂ : List Station}, l₁.map statPre = l₂.map statPre →
      ∀ acc, foldBuild fwdMk acc l₁ = foldBuild fwdMk acc l₂ := by
  intro l₁
  induction l₁ with
  | nil =>
    intro l₂ h acc
    cases l₂ with
    | nil => rfl
    | cons b l => simp at h
  | cons a l₁ ih =>
    intro l₂ h acc
    cases l₂ with
    | nil => simp at h
    | cons b l₂ =>
      simp only [List.map_cons, List.cons.injEq] at h
      rw [foldBuild_cons, foldBuild_cons, fwdMk_congr acc h.1]
      exact ih h.2 _

theorem forwardPass_congr {l₁ l₂ : List Station}
    (h : l₁.map statPre = l₂.map statPre) : forwardPass l₁ = forwardPass l₂ :=
  forwardPass_congr_aux h []

theorem schedule_eq_of_forward_eq {l₁ l₂ : List Station}
    (h : forwardPass l₁ = forwardPass l₂) : schedule ⟨l₁⟩ = schedule ⟨l₂⟩ := by
  simp only [schedule]
  rw [h]

theorem findStation_mem : ∀ {l : List Station} {n : String} {t : Station},
    findStation n l = some t → t ∈ l ∧ t.name = n := by
  intro l
  induction l with
  | nil => intro n t h; simp [findStation] at h
  | cons a l ih =>
    intro n t h
    rw [findStation] at h
    by_cases ha : a.name = n
    · rw [if_pos ha] at h
      have := Option.some.inj h
      subst this
      exact ⟨List.mem_cons_self a l, ha⟩
    · rw [if_neg ha] at h
      obtain ⟨hm, hn⟩ := ih h
      exact ⟨List.mem_cons_of_mem _ hm, hn⟩

theorem namesOf_cons (a : Station) (l : List Station) :
    namesOf (a :: l) = a.name :: namesOf l := rfl

theorem mem_namesOf {t : Station} {l : List Station} (h : t ∈ l) :
    t.name ∈ namesOf l := List.mem_map_of_mem _ h

theorem exists_findStation_of_mem_names : ∀ {l : List Station} {n : String},
    n ∈ namesOf l → ∃ t, findStation n l = some t := by
  intro l
  induction l with
  | nil => intro n h; simp [namesOf] at h
  | cons a l ih =>
    intro n h
    by_cases ha : a.name = n
    · exact ⟨a, by rw [findStation, if_pos ha]⟩
    · rw [namesOf_cons] at h
      rcases List.mem_cons.mp h with h' | h'
      · exact absurd h'.symm ha
      · obtain ⟨t, ht⟩ := ih h'
        exact ⟨t, by rw [findStation, if_neg ha]; exact ht⟩

theorem findStation_eq_some_of_mem : ∀ {l : List Station}, NodupNames l →
    ∀ {t : Station}, t ∈ l → findStation t.name l = some t := by
  intro l
  induction l with
  | nil => intro _ t ht; simp at ht
  | cons a l ih =>
    intro hnd t ht
    rw [NodupNames, namesOf_cons, List.nodup_cons] at hnd
    rcases List.mem_cons.mp ht with rfl | hmem
    · rw [findStation, if_pos rfl]
    · by_cases ha : a.name = t.name
      · exact absurd (ha ▸ mem_namesOf hmem) hnd.1
      · rw [findStation, if_neg ha]
        exact ih hnd.2 hmem

theorem le_foldl_max : ∀ (l : List ℚ) (b : ℚ), b ≤ l.foldl max b := by
  intro l
  induction l with
  | nil => intro b; simp
  | cons a l ih =>
    intro b
    rw [List.foldl_cons]
    exact le_trans (le_max_left b a) (ih (max b a))

theorem mem_le_foldl_max : ∀ (l : List ℚ) (b : ℚ), ∀ a ∈ l, a ≤ l.foldl max b := by
  intro l
  induction l with
  | nil => intro b a ha; simp at ha
  | cons c l ih =>
    intro b a ha
    rw [List.foldl_cons]
    rcases List.mem_cons.mp ha with rfl | h
    · exact le_trans (le_max_right b a) (le_foldl_max l (max b a))
    · exact ih (max b c) a h

theorem foldl_max_eq_or_mem : ∀ (l : List ℚ) (b : ℚ),
    l.foldl max b = b ∨ l.foldl max b ∈ l := by
  intro l
  induction l with
  | nil => intro b; exact Or.inl rfl
  | cons c l ih =>
    intro b
    rw [List.foldl_cons]
    rcases ih (max b c) with h | h
    · rcases le_total b c with hbc | hcb
      · right
        rw [h, max_eq_right hbc]
        exact List.mem_cons_self c l
      · left
        rw [h, max_eq_left hcb]
    · exact Or.inr (List.mem_cons_of_mem _ h)

theorem foldBuild_fwd_ef_nonneg : ∀ (l acc : List Station),
    (∀ t ∈ acc, 0 ≤ t.earliest_finish) → (∀ s ∈ l, 0 < s.processing_time) →
    ∀ t ∈ foldBuild fwdMk acc l,
      0 ≤ t.earliest_finish ∧ (t ∈ acc ∨ 0 < t.earliest_finish) := by
  intro l
  induction l with
  | nil =>
    intro acc hacc _ t ht
    have ht' : t ∈ acc := by simpa [foldBuild] using ht
    exact ⟨hacc t ht', Or.inl ht'⟩
  | cons s l ih =>
    intro acc hacc hpos t ht
    rw [foldBuild_cons] at ht
    have hes : 0 ≤ (fwdMk acc s).earliest_start := by
      simp only [fwdMk]
      cases hp : s.predecessor_name with
      | none => simp
      | some p =>
        simp only []
        cases hf : lookupEF acc p with
        | none => simp [hf]
        | some e =>
          simp only [hf, Option.getD_some]
          rw [lookupEF] at hf
          obtain ⟨u, hu, hue⟩ := Option.map_eq_some'.mp hf
          obtain ⟨hmem, _⟩ := findStation_mem hu
          rw [← hue]
          exact hacc u hmem
    have hef : 0 < (fwdMk acc s).earliest_finish := by
      have hpt : 0 < s.processing_time := hpos s (List.mem_cons_self s l)
      have heq : (fwdMk acc s).earliest_finish =
          (fwdMk acc s).earliest_start + s.processing_time := by
        simp [fwdMk]
      rw [heq]
      exact add_pos_of_nonneg_of_pos hes hpt
    have hacc' : ∀ u ∈ acc ++ [fwdMk acc s], 0 ≤ u.earliest_finish := by
      intro u hu
      rcases List.mem_append.mp hu with h' | h'
      · exact hacc u h'
      · rw [List.mem_singleton.mp h']
        exact le_of_lt hef
    obtain ⟨h1, h2⟩ := ih (acc ++ [fwdMk acc s]) hacc'
      (fun u hu => hpos u (List.mem_cons_of_mem _ hu)) t ht
    refine ⟨h1, ?_⟩
    rcases h2 with h | h
    · rcases List.mem_append.mp h with h' | h'
      · exact Or.inl h'
      · right
        rw [List.mem_singleton.mp h']
        exact hef
    · exact Or.inr h

theorem map_statFwd_getElem? {l₁ l₂ : List Station}
    (h : l₁.map statFwd = l₂.map statFwd) (i : Nat) :
    (l₁[i]?).map statFwd = (l₂[i]?).map statFwd := by
  rw [← List.getElem?_map, ← List.getElem?_map, h]

theorem mem_lift_statFwd {l₁ l₂ : List Station}
    (h : l₁.map statFwd = l₂.map statFwd) {u : Station} (hu : u ∈ l₂) :
    ∃ v ∈ l₁, statFwd v = statFwd u := by
  have hm : statFwd u ∈ l₁.map statFwd := by
    rw [h]
    exact List.mem_map_of_mem _ hu
  obtain ⟨v, hv, hve⟩ := List.mem_map.mp hm
  exact ⟨v, hv, hve⟩

theorem statFwd_fields {a b : Station} (h : statFwd a = statFwd b) :
    a.name = b.name ∧ a.processing_time = b.processing_time ∧
      a.predecessor_name = b.predecessor_name ∧ a.earliest_start = b.earliest_start ∧
      a.earliest_finish = b.earliest_finish := by
  simp only [statFwd, statPre, Prod.mk.injEq] at h
  tauto

theorem length_eq_of_map_statFwd {l₁ l₂ : List Station}
    (h : l₁.map statFwd = l₂.map statFwd) : l₁.length = l₂.length := by
  have := congrArg List.length h
  simpa using this

theorem namesOf_eq_of_statPre {l₁ l₂ : List Station}
    (h : l₁.map statPre = l₂.map statPre) : namesOf l₁ = namesOf l₂ := by
  have h2 := congrArg (List.map Prod.fst) h
  rw [List.map_map, List.map_map] at h2
  exact h2

theorem map_statPre_of_map_statFwd {l₁ l₂ : List Station}
    (h : l₁.map statFwd = l₂.map statFwd) : l₁.map statPre = l₂.map statPre := by
  have h2 := congrArg (List.map Prod.fst) h
  rw [List.map_map, List.map_map] at h2
  exact h2

theorem forwardPass_length (order : List Station) :
    (forwardPass order).length = order.length := by
  rw [forwardPass, foldBuild_length]
  simp

theorem forwardPass_getElem (order : List Station) (i : Nat) (hi : i < order.length) :
    (forwardPass order)[i]? = some (fwdMk (forwardPass (order.take i)) order[i]) :=
  foldBuild_getElem fwdMk order i hi

theorem fwdMk_ef (acc : List Station) (s : Station) :
    (fwdMk acc s).earliest_finish = (fwdMk acc s).earliest_start + s.processing_time := by
  simp [fwdMk]

theorem fwdMk_pt (acc : List Station) (s : Station) :
    (fwdMk acc s).processing_time = s.processing_time := rfl

theorem fwdMk_pred (acc : List Station) (s : Station) :
    (fwdMk acc s).predecessor_name = s.predecessor_name := rfl

theorem fwdMk_es_none (acc : List Station) (s : Station)
    (h : s.predecessor_name = none) : (fwdMk acc s).earliest_start = 0 := by
  simp [fwdMk, h]

theorem fwdMk_es_some (acc : List Station) (s : Station) (p : String)
    (h : s.predecessor_name = some p) :
    (fwdMk acc s).earliest_start = (lookupEF acc p).getD 0 := by
  simp [fwdMk, h]

/-- C7: the scheduler is a pure, deterministic function of the static graph
data: running `schedule` again on the graph whose stations carry the
derived values written by the first run yields results identical to the
first run.  In the mutable original this is exactly "calling `schedule`
twice on an unmodified graph yields bit-identical results". -/
theorem schedule_idempotent (g : StationGraph) :
    schedule ⟨(schedule g).stations⟩ = schedule g := by
  obtain ⟨stations⟩ := g
  exact schedule_eq_of_forward_eq (forwardPass_congr (schedule_map_statPre stations))

/-- C1: for every validated DAG of stations processed in topological order,
`schedule` assigns each station `earliest_start` equal to its predecessor's
`earliest_finish` (or `0` when it has no predecessor) and `earliest_finish`
equal to `earliest_start + processing_time`, and sets
`critical_path_length` to the maximum `earliest_finish` over all stations;
for the empty station set, `critical_path_length` is `0` and the
critical-name list is empty. -/
theorem schedule_forward_pass_correct (order : List Station) (hv : ValidOrder order) :
    (∀ (i : Nat) (t : Station), (schedule ⟨order⟩).stations[i]? = some t →
      t.earliest_finish = t.earliest_start + t.processing_time ∧
      (t.predecessor_name = none → t.earliest_start = 0) ∧
      (∀ p, t.predecessor_name = some p →
        ∃ u ∈ (schedule ⟨order⟩).stations, u.name = p ∧
          t.earliest_start = u.earliest_finish)) ∧
    (∀ t ∈ (schedule ⟨order⟩).stations,
      t.earliest_finish ≤ (schedule ⟨order⟩).critical_path_length) ∧
    (order ≠ [] → ∃ t ∈ (schedule ⟨order⟩).stations,
      (schedule ⟨order⟩).critical_path_length = t.earliest_finish) ∧
    (order = [] → (schedule ⟨order⟩).critical_path_length = 0 ∧
      (schedule ⟨order⟩).critical_station_names = []) := by
  obtain ⟨hnodup, hpos, htopo⟩ := hv
  have hsched_st : (schedule ⟨order⟩).stations =
      backwardPass (forwardPass order) (criticalPathLength (forwardPass order)) := rfl
  have hsched_cpl : (schedule ⟨order⟩).critical_path_length =
      criticalPathLength (forwardPass order) := rfl
  have hmapFwd : (backwardPass (forwardPass order)
        (criticalPathLength (forwardPass order))).map statFwd =
      (forwardPass order).map statFwd := backwardPass_map_statFwd _ _
  refine ⟨?_, ?_, ?_, ?_⟩
  · -- per-station forward equations
    intro i t hsome
    have hi : i < order.length := by
      by_contra hge
      push_neg at hge
      have hlen : (schedule ⟨order⟩).stations.length = order.length := by
        rw [hsched_st]
        exact (length_eq_of_map_statFwd hmapFwd).trans (forwardPass_length order)
      rw [List.getElem?_eq_none (by omega)] at hsome
      exact Option.noConfusion hsome
    have heq : statFwd t = statFwd (fwdMk (forwardPass (order.take i)) order[i]) := by
      have h1 := map_statFwd_getElem? hmapFwd i
      rw [← hsched_st, hsome, forwardPass_getElem order i hi] at h1
      exact Option.some.inj h1
    obtain ⟨hname, hpt, hpred, hes, hef⟩ := statFwd_fields heq
    refine ⟨?_, ?_, ?_⟩
    · rw [hef, hes, hpt, fwdMk_pt, fwdMk_ef]
    · intro hpn
      rw [hpred, fwdMk_pred] at hpn
      rw [hes, fwdMk_es_none _ _ hpn]
    · intro p hp
      rw [hpred, fwdMk_pred] at hp
      obtain ⟨j, s', hji, hjs, hjname⟩ :=
        htopo i p order[i] (List.getElem?_eq_some.mpr ⟨hi, rfl⟩) hp
      have hsmem : s' ∈ order.take i := by
        have hjs' : (order.take i)[j]? = some s' := by
          rw [List.getElem?_take, if_pos hji]
          exact hjs
        obtain ⟨hjlt, hjel⟩ := List.getElem?_eq_some.mp hjs'
        rw [← hjel]
        exact List.getElem_mem hjlt
      have hpmem : p ∈ namesOf (forwardPass (order.take i)) := by
        rw [namesOf_eq_of_statPre (forwardPass_map_statPre (order.take i)), ← hjname]
        exact mem_namesOf hsmem
      obtain ⟨u, hu⟩ := exists_findStation_of_mem_names hpmem
      obtain ⟨humem, huname⟩ := findStation_mem hu
      have hes_val : t.earliest_start = u.earliest_finish := by
        rw [hes, fwdMk_es_some _ _ p hp, lookupEF, hu]
        rfl
      have hufwd : u ∈ forwardPass order := by
        have hfw : forwardPass order =
            foldBuild fwdMk (forwardPass (order.take i)) (order.drop i) := by
          conv_lhs => rw [forwardPass, ← List.take_append_drop i order]
          rw [foldBuild_append_arg]
          rfl
        obtain ⟨out, hout⟩ :=
          foldBuild_prefix fwdMk (order.drop i) (forwardPass (order.take i))
        rw [hfw, hout]
        exact List.mem_append_left _ humem
      obtain ⟨v, hvmem, hveq⟩ := mem_lift_statFwd hmapFwd hufwd
      obtain ⟨hvname, _, _, _, hvef⟩ := statFwd_fields hveq
      refine ⟨v, ?_, ?_, ?_⟩
      · rw [hsched_st]
        exact hvmem
      · rw [hvname, huname]
      · rw [hes_val, hvef]
  · -- critical path length is an upper bound
    intro t ht
    rw [hsched_st] at ht
    obtain ⟨v, hvfwd, hveq⟩ := mem_lift_statFwd hmapFwd.symm ht
    obtain ⟨_, _, _, _, hvef⟩ := statFwd_fields hveq
    rw [hsched_cpl, ← hvef]
    exact mem_le_foldl_max _ 0 _ (List.mem_map_of_mem _ hvfwd)
  · -- critical path length is attained
    intro hne
    have hfwdne : forwardPass order ≠ [] := by
      intro h0
      have : order.length = 0 := by
        rw [← forwardPass_length order, h0]
        rfl
      exact hne (List.length_eq_zero.mp this)
    rcases foldl_max_eq_or_mem
        ((forwardPass order).map (fun s => s.earliest_finish)) 0 with hc | hc
    · exfalso
      obtain ⟨t0, ht0⟩ := List.exists_mem_of_ne_nil _ hfwdne
      have hp0 := foldBuild_fwd_ef_nonneg order [] (by simp) hpos t0 ht0
      rcases hp0.2 with h | h
      · simp at h
      · have hle := mem_le_foldl_max ((forwardPass order).map
            (fun s => s.earliest_finish)) 0 _ (List.mem_map_of_mem _ ht0)
        rw [hc] at hle
        exact absurd (lt_of_lt_of_le h hle) (lt_irrefl 0)
    · obtain ⟨t, htmem, htef⟩ := List.mem_map.mp hc
      obtain ⟨v, hvmem, hveq⟩ := mem_lift_statFwd hmapFwd htmem
      obtain ⟨_, _, _, _, hvef⟩ := statFwd_fields hveq
      refine ⟨v, ?_, ?_⟩
      · rw [hsched_st]
        exact hvmem
      · rw [hsched_cpl, criticalPathLength, ← htef, hvef]
  · -- empty station set
    intro h0
    subst h0
    exact ⟨rfl, rfl⟩

/-- The two-station chain is a validated topological order. -/
theorem validOrder_twoChain : ValidOrder twoChain := by
  refine ⟨?_, ?_, ?_⟩
  · simp [NodupNames, namesOf, twoChain]
  · intro s hs
    rw [twoChain] at hs
    rcases List.mem_cons.mp hs with h | h
    · rw [h]; norm_num
    · rcases List.mem_cons.mp h with h' | h'
      · rw [h']; norm_num
      · simp at h'
  · intro i p s hs hp
    match i with
    | 0 =>
      have hsA := hs
      simp only [twoChain, List.getElem?_cons_zero] at hsA
      have hAs := Option.some.inj hsA
      rw [← hAs] at hp
      exact Option.noConfusion hp
    | 1 =>
      have hsB := hs
      simp only [twoChain, List.getElem?_cons_succ, List.getElem?_cons_zero] at hsB
      have hBs := Option.some.inj hsB
      rw [← hBs] at hp
      have hpA : p = "A" := (Option.some.inj hp).symm
      subst hpA
      exact ⟨0, _, by omega, rfl, rfl⟩
    | (n + 2) =>
      rw [show twoChain[n + 2]? = none from by simp [twoChain]] at hs
      exact Option.noConfusion hs

theorem bottleneckStep_lt (b0 s : Station)
    (h : b0.processing_time < s.processing_time) :
    bottleneckStep (some b0) s = some s := by
  simp only [bottleneckStep]
  rw [if_pos h]

theorem bottleneckStep_ge (b0 s : Station)
    (h : ¬b0.processing_time < s.processing_time) :
    bottleneckStep (some b0) s = some b0 := by
  simp only [bottleneckStep]
  rw [if_neg h]

theorem bottleneck_foldl_aux : ∀ (l : List Station) (b0 : Station),
    ∃ b, l.foldl bottleneckStep (some b0) = some b ∧
    ((b = b0 ∧ ∀ s ∈ l, s.processing_time ≤ b0.processing_time) ∨
      (∃ i : Nat, l[i]? = some b ∧ b0.processing_time < b.processing_time ∧
        (∀ (j : Nat) (s : Station), j < i → l[j]? = some s →
          s.processing_time < b.processing_time) ∧
        (∀ s ∈ l, s.processing_time ≤ b.processing_time))) := by
  intro l
  induction l with
  | nil =>
    intro b0
    exact ⟨b0, rfl, Or.inl ⟨rfl, by simp⟩⟩
  | cons a l ih =>
    intro b0
    rw [List.foldl_cons]
    by_cases hlt : b0.processing_time < a.processing_time
    · rw [bottleneckStep_lt b0 a hlt]
      obtain ⟨b, hfold, hcase⟩ := ih a
      refine ⟨b, hfold, Or.inr ?_⟩
      rcases hcase with ⟨rfl, hle⟩ | ⟨i, hil, hblt, hfirst, hle⟩
      · refine ⟨0, List.getElem?_cons_zero, hlt, ?_, ?_⟩
        · intro j s hj _
          omega
        · intro s hs
          rcases List.mem_cons.mp hs with rfl | h
          · exact le_refl _
          · exact hle s h
      · refine ⟨i + 1, by rw [List.getElem?_cons_succ]; exact hil,
          lt_trans hlt hblt, ?_, ?_⟩
        · intro j s hj hjs
          match j with
          | 0 =>
            rw [List.getElem?_cons_zero] at hjs
            rw [← Option.some.inj hjs]
            exact hblt
          | (j' + 1) =>
            rw [List.getElem?_cons_succ] at hjs
            exact hfirst j' s (by omega) hjs
        · intro s hs
          rcases List.mem_cons.mp hs with rfl | h
          · exact le_of_lt hblt
          · exact hle s h
    · rw [bottleneckStep_ge b0 a hlt]
      obtain ⟨b, hfold, hcase⟩ := ih b0
      refine ⟨b, hfold, ?_⟩
      rcases hcase with ⟨rfl, hle⟩ | ⟨i, hil, hblt, hfirst, hle⟩
      · refine Or.inl ⟨rfl, ?_⟩
        intro s hs
        rcases List.mem_cons.mp hs with rfl | h
        · exact not_lt.mp hlt
        · exact hle s h
      · refine Or.inr ⟨i + 1, by rw [List.getElem?_cons_succ]; exact hil, hblt, ?_, ?_⟩
        · intro j s hj hjs
          match j with
          | 0 =>
            rw [List.getElem?_cons_zero] at hjs
            rw [← Option.some.inj hjs]
            exact lt_of_le_of_lt (not_lt.mp hlt) hblt
          | (j' + 1) =>
            rw [List.getElem?_cons_succ] at hjs
            exact hfirst j' s (by omega) hjs
        · intro s hs
          rcases List.mem_cons.mp hs with rfl | h
          · exact le_of_lt (lt_of_le_of_lt (not_lt.mp hlt) hblt)
          · exact hle s h

theorem bottleneckOf_spec (l : List Station) (hne : l ≠ []) :
    ∃ (i : Nat) (b : Station), bottleneckOf l = some b ∧ l[i]? = some b ∧
      (∀ s ∈ l, s.processing_time ≤ b.processing_time) ∧
      (∀ (j : Nat) (s : Station), j < i → l[j]? = some s →
        s.processing_time < b.processing_time) := by
  match l with
  | [] => exact absurd rfl hne
  | a :: l =>
    obtain ⟨b, hfold, hcase⟩ := bottleneck_foldl_aux l a
    rcases hcase with ⟨rfl, hle⟩ | ⟨i, hil, hblt, hfirst, hle⟩
    · refine ⟨0, b, ?_, List.getElem?_cons_zero, ?_, ?_⟩
      · rw [bottleneckOf, List.foldl_cons]
        exact hfold
      · intro s hs
        rcases List.mem_cons.mp hs with rfl | h
        · exact le_refl _
        · exact hle s h
      · intro j s hj _
        omega
    · refine ⟨i + 1, b, ?_, by rw [List.getElem?_cons_succ]; exact hil, ?_, ?_⟩
      · rw [bottleneckOf, List.foldl_cons]
        exact hfold
      · intro s hs
        rcases List.mem_cons.mp hs with rfl | h
        · exact le_of_lt hblt
        · exact hle s h
      · intro j s hj hjs
        match j with
        | 0 =>
          rw [List.getElem?_cons_zero] at hjs
          rw [← Option.some.inj hjs]
          exact hblt
        | (j' + 1) =>
          rw [List.getElem?_cons_succ] at hjs
          exact hfirst j' s (by omega) hjs

/-- C5: for every non-empty scheduled station set, `analyze` returns as
bottleneck the station with the maximum `processing_time`, breaking ties by
first occurrence in the original input order, and returns `cycle_time`
equal to that bottleneck's `processing_time`. -/
theorem analyze_bottleneck_correct (res : ScheduleResult) (units : Nat)
    (hne : res.stations ≠ []) :
    ∃ (i : Nat) (b : Station), res.stations[i]? = some b ∧
      (analyze res units).bottleneck_name = b.name ∧
      (analyze res units).bottleneck_time = b.processing_time ∧
      (analyze res units).cycle_time = b.processing_time ∧
      (∀ s ∈ res.stations, s.processing_time ≤ b.processing_time) ∧
      (∀ (j : Nat) (s : Station), j < i → res.stations[j]? = some s →
        s.processing_time < b.processing_time) := by
  obtain ⟨i, b, hbot, hel, hub, hfirst⟩ := bottleneckOf_spec res.stations hne
  refine ⟨i, b, hel, ?_, ?_, ?_, hub, hfirst⟩ <;> simp [analyze, hbot]

/-- Witness for C5: the bottleneck characterization instantiated at a
concrete non-empty scheduled station set. -/
theorem analyze_bottleneck_correct_witness :
    ∃ (i : Nat) (b : Station),
      (ScheduleResult.mk twoChain 0 []).stations[i]? = some b ∧
      (analyze (ScheduleResult.mk twoChain 0 []) 5).bottleneck_name = b.name ∧
      (analyze (ScheduleResult.mk twoChain 0 []) 5).bottleneck_time = b.processing_time ∧
      (analyze (ScheduleResult.mk twoChain 0 []) 5).cycle_time = b.processing_time ∧
      (∀ s ∈ (ScheduleResult.mk twoChain 0 []).stations,
        s.processing_time ≤ b.processing_time) ∧
      (∀ (j : Nat) (s : Station), j < i →
        (ScheduleResult.mk twoChain 0 []).stations[j]? = some s →
        s.processing_time < b.processing_time) :=
  analyze_bottleneck_correct (ScheduleResult.mk twoChain 0 []) 5
    (by with_unfolding_all decide)

theorem insertSorted_perm (le : α → α → Bool) (a : α) :
    ∀ l : List α, (insertSorted le a l).Perm (a :: l) := by
  intro l
  induction l with
  | nil => exact List.Perm.refl _
  | cons b l ih =>
    rw [insertSorted]
    by_cases h : le a b = true
    · rw [if_pos h]
    · rw [if_neg h]
      exact (ih.cons b).trans (List.Perm.swap a b l)

theorem sortBy_perm (le : α → α → Bool) : ∀ l : List α, (sortBy le l).Perm l := by
  intro l
  induction l with
  | nil => exact List.Perm.refl _
  | cons a l ih =>
    rw [sortBy]
    exact (insertSorted_perm le a (sortBy le l)).trans (ih.cons a)

theorem sum_map_add {M : Type} [AddCommMonoid M] (l : List α) (f g : α → M) :
    (l.map (fun a => f a + g a)).sum = (l.map f).sum + (l.map g).sum := by
  induction l with
  | nil => simp
  | cons a l ih =>
    simp only [List.map_cons, List.sum_cons, ih]
    rw [add_add_add_comm]

theorem sum_map_one (l : List α) : (l.map (fun _ => (1 : ℚ))).sum = l.length := by
  induction l with
  | nil => simp
  | cons a l ih => simp [ih, add_comm]

theorem sum_range_ite (r : Nat) : ∀ m : Nat,
    ((List.range m).map (fun k => if k < r then 1 else 0)).sum = min r m := by
  intro m
  induction m with
  | zero => simp
  | succ m ih =>
    rw [List.range_succ, List.map_append, List.sum_append, ih]
    by_cases h : m < r
    · rw [List.map_singleton, if_pos h]
      simp
      omega
    · rw [List.map_singleton, if_neg h]
      simp
      omega

theorem sum_lt_sum_of_lt (l : List α) (hne : l ≠ []) (f g : α → ℚ)
    (h : ∀ a ∈ l, f a < g a) : (l.map f).sum < (l.map g).sum := by
  match l with
  | [] => exact absurd rfl hne
  | a :: l =>
    simp only [List.map_cons, List.sum_cons]
    exact add_lt_add_of_lt_of_le (h a (List.mem_cons_self a l))
      (List.sum_le_sum (fun b hb => le_of_lt (h b (List.mem_cons_of_mem a hb))))

theorem idealShare_nonneg {total : ℚ} (htot : 0 < total) (w : Nat) {s : Station}
    (hs : 0 < s.processing_time) : 0 ≤ idealShare total w s := by
  rw [idealShare]
  positivity

theorem baseShare_cast {total : ℚ} (htot : 0 < total) (w : Nat) {s : Station}
    (hs : 0 < s.processing_time) :
    ((baseShare total w s : ℕ) : ℚ) = ((⌊idealShare total w s⌋ : ℤ) : ℚ) := by
  rw [baseShare]
  have h0 : 0 ≤ ⌊idealShare total w s⌋ :=
    Int.floor_nonneg.mpr (idealShare_nonneg htot w hs)
  exact_mod_cast congrArg (fun z : ℤ => (z : ℚ)) (Int.toNat_of_nonneg h0)

theorem ideal_sum_eq {stations : List Station} {w : Nat}
    (htot : (stations.map (fun s => s.processing_time)).sum ≠ 0) :
    (stations.map (idealShare ((stations.map (fun s => s.processing_time)).sum) w)).sum
      = w := by
  have hrw : ∀ s : Station,
      idealShare ((stations.map (fun s => s.processing_time)).sum) w s =
        s.processing_time *
          ((w : ℚ) / (stations.map (fun s => s.processing_time)).sum) := by
    intro s
    rw [idealShare, div_mul_eq_mul_div, mul_div_assoc]
  calc (stations.map
          (idealShare ((stations.map (fun s => s.processing_time)).sum) w)).sum
      = (stations.map (fun s => s.processing_time *
          ((w : ℚ) / (stations.map (fun s => s.processing_time)).sum))).sum := by
        exact congrArg List.sum (List.map_congr_left (fun s _ => hrw s))
    _ = (stations.map (fun s => s.processing_time)).sum *
          ((w : ℚ) / (stations.map (fun s => s.processing_time)).sum) :=
        List.sum_map_mul_right _ _ _
    _ = w := by
        rw [mul_div_assoc']
        exact mul_div_cancel_left₀ _ htot

/-- C2 counterexample: the empty station set is accepted by the registry's
validation, yet with one available worker the allocation sums to `0`, not
`1` — apportionment exactness fails on the empty set. -/
theorem allocate_sum_counterexample :
    validateStations [] = true ∧ ((allocate [] 1).map Prod.snd).sum ≠ 1 := by
  with_unfolding_all decide

/-- C2 (amended): for every valid non-empty station set and every
`available_workers ≥ 0`, the allocation returned by `allocate` sums to
`available_workers` exactly. -/
theorem allocate_sum_eq (stations : List Station) (w : Nat)
    (hne : stations ≠ []) (hpos : ∀ s ∈ stations, 0 < s.processing_time) :
    ((allocate stations w).map Prod.snd).sum = w := by
  have htot : 0 < (stations.map (fun s => s.processing_time)).sum := by
    apply List.sum_pos
    · intro x hx
      obtain ⟨s, hs, rfl⟩ := List.mem_map.mp hx
      exact hpos s hs
    · simpa using hne
  rcases Nat.eq_zero_or_pos w with hw0 | hwpos
  · subst hw0
    rw [allocate, if_pos (Or.inr rfl)]
    rw [List.map_map]
    exact List.sum_eq_zero (by simp)
  · have hcond : ¬((stations.map (fun s => s.processing_time)).sum = 0 ∨ w = 0) := by
      push_neg
      exact ⟨ne_of_gt htot, by omega⟩
    rw [allocate, if_neg hcond]
    have hcast : ∀ s ∈ stations,
        ((baseShare ((stations.map (fun s => s.processing_time)).sum) w s : ℕ) : ℚ) =
          ((⌊idealShare ((stations.map (fun s => s.processing_time)).sum) w s⌋ : ℤ) : ℚ) :=
      fun s hs => baseShare_cast htot w (hpos s hs)
    -- the quantity `baseSum` and its bounds
    have hbase_le : ((stations.map
        (baseShare ((stations.map (fun s => s.processing_time)).sum) w)).sum : ℚ) ≤ w := by
      rw [Nat.cast_list_sum, List.map_map]
      calc ((stations.map (fun s =>
              ((baseShare ((stations.map (fun s => s.processing_time)).sum) w s : ℕ) : ℚ)))).sum
          ≤ (stations.map
              (idealShare ((stations.map (fun s => s.processing_time)).sum) w)).sum := by
            apply List.sum_le_sum
            intro s hs
            rw [hcast s hs]
            exact Int.floor_le _
        _ = w := ideal_sum_eq (ne_of_gt htot)
    have hbase_lt : (w : ℚ) < ((stations.map
        (baseShare ((stations.map (fun s => s.processing_time)).sum) w)).sum : ℚ)
          + stations.length := by
      have h1 : (stations.map
          (idealShare ((stations.map (fun s => s.processing_time)).sum) w)).sum <
          (stations.map (fun s =>
            ((baseShare ((stations.map (fun s => s.processing_time)).sum) w s : ℕ) : ℚ)
              + 1)).sum := by
        apply sum_lt_sum_of_lt stations hne
        intro s hs
        rw [hcast s hs]
        exact Int.lt_floor_add_one _
      rw [sum_map_add, sum_map_one] at h1
      rw [Nat.cast_list_sum, List.map_map]
      calc (w : ℚ) = (stations.map
            (idealShare ((stations.map (fun s => s.processing_time)).sum) w)).sum :=
            (ideal_sum_eq (ne_of_gt htot)).symm
        _ < _ := h1
    have hbase_leN : (stations.map
        (baseShare ((stations.map (fun s => s.processing_time)).sum) w)).sum ≤ w := by
      exact_mod_cast hbase_le
    have hbase_ltN : w < (stations.map
        (baseShare ((stations.map (fun s => s.processing_time)).sum) w)).sum
          + stations.length := by
      exact_mod_cast hbase_lt
    -- evaluate the sum of the produced pairs
    rw [List.map_map]
    have hsum_split :
        (((sortBy (remainderOrder ((stations.map (fun s => s.processing_time)).sum) w)
            stations.enum).enum).map (fun q =>
          baseShare ((stations.map (fun s => s.processing_time)).sum) w q.2.2 +
            if q.1 < w - (stations.map
              (baseShare ((stations.map (fun s => s.processing_time)).sum) w)).sum
            then 1 else 0)).sum =
        (((sortBy (remainderOrder ((stations.map (fun s => s.processing_time)).sum) w)
            stations.enum).enum).map (fun q =>
          baseShare ((stations.map (fun s => s.processing_time)).sum) w q.2.2)).sum +
        (((sortBy (remainderOrder ((stations.map (fun s => s.processing_time)).sum) w)
            stations.enum).enum).map (fun q =>
          if q.1 < w - (stations.map
              (baseShare ((stations.map (fun s => s.processing_time)).sum) w)).sum
            then 1 else 0)).sum := sum_map_add _ _ _
    have hfst : (((sortBy (remainderOrder ((stations.map (fun s => s.processing_time)).sum)
        w) stations.enum).enum).map (fun q =>
          baseShare ((stations.map (fun s => s.processing_time)).sum) w q.2.2)).sum =
        (stations.map
          (baseShare ((stations.map (fun s => s.processing_time)).sum) w)).sum := by
      have h1 : (((sortBy (remainderOrder
          ((stations.map (fun s => s.processing_time)).sum) w) stations.enum).enum).map
            (fun q => baseShare ((stations.map (fun s => s.processing_time)).sum) w
              q.2.2)).sum =
          (((sortBy (remainderOrder ((stations.map (fun s => s.processing_time)).sum) w)
              stations.enum).enum.map Prod.snd).map (fun e =>
            baseShare ((stations.map (fun s => s.processing_time)).sum) w e.2)).sum := by
        rw [List.map_map]
        rfl
      rw [h1, List.enum_map_snd]
      have hperm := (sortBy_perm (remainderOrder
          ((stations.map (fun s => s.processing_time)).sum) w) stations.enum).map
        (fun e : ℕ × Station =>
          baseShare ((stations.map (fun s => s.processing_time)).sum) w e.2)
      rw [hperm.sum_eq]
      have h2 : ((stations.enum).map (fun e : ℕ × Station =>
          baseShare ((stations.map (fun s => s.processing_time)).sum) w e.2)).sum =
          ((stations.enum.map Prod.snd).map
            (baseShare ((stations.map (fun s => s.processing_time)).sum) w)).sum := by
        rw [List.map_map]
        rfl
      rw [h2, List.enum_map_snd]
    have hsnd : (((sortBy (remainderOrder ((stations.map (fun s => s.processing_time)).sum)
        w) stations.enum).enum).map (fun q =>
          if q.1 < w - (stations.map
            (baseShare ((stations.map (fun s => s.processing_time)).sum) w)).sum
          then 1 else 0)).sum =
        min (w - (stations.map
          (baseShare ((stations.map (fun s => s.processing_time)).sum) w)).sum)
          stations.length := by
      have h1 : (((sortBy (remainderOrder
          ((stations.map (fun s => s.processing_time)).sum) w) stations.enum).enum).map
            (fun q => if q.1 < w - (stations.map
              (baseShare ((stations.map (fun s => s.processing_time)).sum) w)).sum
            then 1 else 0)).sum =
          (((sortBy (remainderOrder ((stations.map (fun s => s.processing_time)).sum) w)
              stations.enum).enum.map Prod.fst).map (fun k =>
            if k < w - (stations.map
              (baseShare ((stations.map (fun s => s.processing_time)).sum) w)).sum
            then 1 else 0)).sum := by
        rw [List.map_map]
        rfl
      rw [h1, List.enum_map_fst, sum_range_ite]
      have hlen : (sortBy (remainderOrder ((stations.map
          (fun s => s.processing_time)).sum) w) stations.enum).length =
          stations.length := by
        rw [(sortBy_perm _ _).length_eq, List.enum_length]
      rw [hlen]
    rw [show (Prod.snd ∘ fun q : ℕ × (ℕ × Station) =>
        (q.2.2.name,
          baseShare ((stations.map (fun s => s.processing_time)).sum) w q.2.2 +
            if q.1 < w - (stations.map
                (baseShare ((stations.map (fun s => s.processing_time)).sum) w)).sum
            then 1 else 0)) =
      (fun q : ℕ × (ℕ × Station) =>
        baseShare ((stations.map (fun s => s.processing_time)).sum) w q.2.2 +
          if q.1 < w - (stations.map
              (baseShare ((stations.map (fun s => s.processing_time)).sum) w)).sum
          then 1 else 0) from rfl]
    rw [hsum_split, hfst, hsnd]
    omega

/-- Witness for C2 (amended): the exactness equation instantiated at the
two-station chain with seven workers. -/
theorem allocate_sum_eq_witness : ((allocate twoChain 7).map Prod.snd).sum = 7 :=
  allocate_sum_eq twoChain 7 (by with_unfolding_all decide)
    (by intro s hs; rw [twoChain] at hs; fin_cases hs <;> norm_num)

theorem foldl_min_le : ∀ (l : List ℚ) (b : ℚ), l.foldl min b ≤ b := by
  intro l
  induction l with
  | nil => intro b; simp
  | cons a l ih =>
    intro b
    rw [List.foldl_cons]
    exact le_trans (ih (min b a)) (min_le_left b a)

theorem foldl_min_le_mem : ∀ (l : List ℚ) (b : ℚ), ∀ a ∈ l, l.foldl min b ≤ a := by
  intro l
  induction l with
  | nil => intro b a ha; simp at ha
  | cons c l ih =>
    intro b a ha
    rw [List.foldl_cons]
    rcases List.mem_cons.mp ha with rfl | h
    · exact le_trans (foldl_min_le l (min b a)) (min_le_right b a)
    · exact ih (min b c) a h

theorem foldl_min_eq_or_mem : ∀ (l : List ℚ) (b : ℚ),
    l.foldl min b = b ∨ l.foldl min b ∈ l := by
  intro l
  induction l with
  | nil => intro b; exact Or.inl rfl
  | cons c l ih =>
    intro b
    rw [List.foldl_cons]
    rcases ih (min b c) with h | h
    · rcases le_total b c with hbc | hcb
      · left
        rw [h, min_eq_left hbc]
      · right
        rw [h, min_eq_right hcb]
        exact List.mem_cons_self c l
    · exact Or.inr (List.mem_cons_of_mem _ h)

theorem statPre_fields {a b : Station} (h : statPre a = statPre b) :
    a.name = b.name ∧ a.processing_time = b.processing_time ∧
      a.predecessor_name = b.predecessor_name := by
  simp only [statPre, Prod.mk.injEq] at h
  tauto

theorem topoSorted_of_map_statPre {l₁ l₂ : List Station}
    (h : l₁.map statPre = l₂.map statPre) (ht : TopoSorted l₂) : TopoSorted l₁ := by
  intro i p s hs hp
  have hi := congrArg (fun l => l[i]?) h
  simp only [List.getElem?_map] at hi
  rw [hs] at hi
  cases h2 : l₂[i]? with
  | none =>
    rw [h2] at hi
    simp at hi
  | some s₂ =>
    rw [h2] at hi
    simp only [Option.map_some'] at hi
    have hpre : statPre s = statPre s₂ := Option.some.inj hi
    obtain ⟨_, _, hpredeq⟩ := statPre_fields hpre
    have hp₂ : s₂.predecessor_name = some p := by rw [← hpredeq]; exact hp
    obtain ⟨j, s₂', hj, hjs, hjn⟩ := ht i p s₂ h2 hp₂
    have hj1 := congrArg (fun l => l[j]?) h
    simp only [List.getElem?_map] at hj1
    rw [hjs] at hj1
    cases h3 : l₁[j]? with
    | none =>
      rw [h3] at hj1
      simp at hj1
    | some s₁' =>
      rw [h3] at hj1
      simp only [Option.map_some'] at hj1
      obtain ⟨hne, _, _⟩ := statPre_fields (Option.some.inj hj1)
      exact ⟨j, s₁', hj, h3, by rw [hne, hjn]⟩

theorem bwdMk_name (all : List Station) (cpl : ℚ) (acc : List Station) (s : Station) :
    (bwdMk all cpl acc s).name = s.name := rfl

theorem bwdMk_pred (all : List Station) (cpl : ℚ) (acc : List Station) (s : Station) :
    (bwdMk all cpl acc s).predecessor_name = s.predecessor_name := rfl

theorem bwdMk_pt (all : List Station) (cpl : ℚ) (acc : List Station) (s : Station) :
    (bwdMk all cpl acc s).processing_time = s.processing_time := rfl

theorem bwdMk_es (all : List Station) (cpl : ℚ) (acc : List Station) (s : Station) :
    (bwdMk all cpl acc s).earliest_start = s.earliest_start := rfl

theorem bwdMk_ls_eq (all : List Station) (cpl : ℚ) (acc : List Station) (s : Station) :
    (bwdMk all cpl acc s).latest_start =
      (bwdMk all cpl acc s).latest_finish - s.processing_time := rfl

theorem bwdMk_slack_eq (all : List Station) (cpl : ℚ) (acc : List Station) (s : Station) :
    (bwdMk all cpl acc s).slack =
      (bwdMk all cpl acc s).latest_start - s.earliest_start := rfl

theorem bwdMk_lf_nil (all : List Station) (cpl : ℚ) (acc : List Station) (s : Station)
    (h : successorsOf all s.name = []) : (bwdMk all cpl acc s).latest_finish = cpl := by
  simp [bwdMk, h]

theorem bwdMk_lf_cons (all : List Station) (cpl : ℚ) (acc : List Station) (s : Station)
    (t₀ : Station) (ts : List Station) (h : successorsOf all s.name = t₀ :: ts) :
    (bwdMk all cpl acc s).latest_finish =
      (ts.map (fun u => (lookupLS acc u.name).getD 0)).foldl min
        ((lookupLS acc t₀.name).getD 0) := by
  simp [bwdMk, h]

theorem nodupNames_of_map_statPre {l₁ l₂ : List Station}
    (h : l₁.map statPre = l₂.map statPre) (hn : NodupNames l₂) : NodupNames l₁ := by
  rw [NodupNames, namesOf_eq_of_statPre h]
  exact hn

theorem backwardPass_spec (all : List Station) (cpl : ℚ)
    (hnodup : NodupNames all) (htopo : TopoSorted all) :
    (∀ t ∈ backwardPass all cpl,
      t.latest_start = t.latest_finish - t.processing_time ∧
      t.slack = t.latest_start - t.earliest_start) ∧
    (∀ t ∈ backwardPass all cpl,
      ((∀ u ∈ backwardPass all cpl, u.predecessor_name ≠ some t.name) →
        t.latest_finish = cpl) ∧
      (∀ u ∈ backwardPass all cpl, u.predecessor_name = some t.name →
        t.latest_finish ≤ u.latest_start) ∧
      ((∃ u ∈ backwardPass all cpl, u.predecessor_name = some t.name) →
        ∃ u ∈ backwardPass all cpl, u.predecessor_name = some t.name ∧
          t.latest_finish = u.latest_start)) := by
  have hmap := backwardPass_map_statFwd all cpl
  have hlen : (backwardPass all cpl).length = all.length := length_eq_of_map_statFwd hmap
  have hpre : (backwardPass all cpl).map statPre = all.map statPre :=
    map_statPre_of_map_statFwd hmap
  have hnodup' : NodupNames (backwardPass all cpl) := nodupNames_of_map_statPre hpre hnodup
  constructor
  · -- latest_start and slack equations
    intro t ht
    rw [backwardPass, List.mem_reverse] at ht
    rcases foldBuild_mem _ _ _ _ ht with h0 | ⟨a, b, rfl⟩
    · simp at h0
    · constructor
      · rw [bwdMk_pt]
        exact bwdMk_ls_eq all cpl a b
      · rw [bwdMk_es]
        exact bwdMk_slack_eq all cpl a b
  · -- latest_finish equations
    have hdecomp : ∀ (i : Nat) (t : Station), (backwardPass all cpl)[i]? = some t →
        ∃ fi, all[i]? = some fi ∧
          t = bwdMk all cpl (((backwardPass all cpl).drop (i + 1)).reverse) fi := by
      intro i t ht
      have hi : i < all.length := by
        by_contra hge
        push_neg at hge
        rw [List.getElem?_eq_none (by omega)] at ht
        exact Option.noConfusion ht
      have hrevlen : all.reverse.length = all.length := List.length_reverse _
      have hk : all.length - 1 - i < all.reverse.length := by omega
      have hinner := foldBuild_getElem (bwdMk all cpl) all.reverse (all.length - 1 - i) hk
      have hinnerlen : (foldBuild (bwdMk all cpl) [] all.reverse).length = all.length := by
        rw [foldBuild_length]
        simp [hrevlen]
      have hsi : (backwardPass all cpl)[i]? =
          (foldBuild (bwdMk all cpl) [] all.reverse)[all.length - 1 - i]? := by
        rw [backwardPass, List.getElem?_reverse (by omega), hinnerlen]
      rw [hsi, hinner] at ht
      have ht' := (Option.some.inj ht).symm
      have hacc : foldBuild (bwdMk all cpl) [] (all.reverse.take (all.length - 1 - i)) =
          ((backwardPass all cpl).drop (i + 1)).reverse := by
        have h1 : foldBuild (bwdMk all cpl) [] all.reverse =
            foldBuild (bwdMk all cpl)
              (foldBuild (bwdMk all cpl) [] (all.reverse.take (all.length - 1 - i)))
              (all.reverse.drop (all.length - 1 - i)) := by
          conv_lhs => rw [← List.take_append_drop (all.length - 1 - i) all.reverse]
          rw [foldBuild_append_arg]
        obtain ⟨out, hout⟩ := foldBuild_prefix (bwdMk all cpl)
          (all.reverse.drop (all.length - 1 - i))
          (foldBuild (bwdMk all cpl) [] (all.reverse.take (all.length - 1 - i)))
        have hlenacc : (foldBuild (bwdMk all cpl) []
            (all.reverse.take (all.length - 1 - i))).length = all.length - 1 - i := by
          rw [foldBuild_length]
          simp [List.length_take]
          omega
        have h2 : (foldBuild (bwdMk all cpl) [] all.reverse).take (all.length - 1 - i) =
            foldBuild (bwdMk all cpl) [] (all.reverse.take (all.length - 1 - i)) := by
          rw [h1, hout]
          exact List.take_left' hlenacc
        have h3 : foldBuild (bwdMk all cpl) [] all.reverse =
            (backwardPass all cpl).reverse := by
          rw [backwardPass, List.reverse_reverse]
        rw [h3] at h2
        rw [← h2, List.take_reverse]
        congr 2
        rw [hlen]
        omega
      rw [hacc] at ht'
      have hrkel : all.reverse[all.length - 1 - i] = all[i] := by
        have hq : all.reverse[all.length - 1 - i]? = all[i]? := by
          rw [List.getElem?_reverse (by omega)]
          congr 1
          omega
        rw [List.getElem?_eq_getElem hk, List.getElem?_eq_getElem hi] at hq
        exact Option.some.inj hq
      rw [hrkel] at ht'
      exact ⟨all[i], List.getElem?_eq_getElem hi, ht'⟩
    have hsucc_index : ∀ (i : Nat) (fi : Station), all[i]? = some fi →
        ∀ (pu : Nat) (v : Station), all[pu]? = some v →
          v.predecessor_name = some fi.name → i < pu := by
      intro i fi hfi pu v hv hvp
      obtain ⟨j, s', hj, hjs, hjn⟩ := htopo pu fi.name v hv hvp
      have hnj : (namesOf all)[j]? = some fi.name := by
        show (all.map (fun s => s.name))[j]? = some fi.name
        rw [List.getElem?_map, hjs, Option.map_some', hjn]
      have hni : (namesOf all)[i]? = some fi.name := by
        show (all.map (fun s => s.name))[i]? = some fi.name
        rw [List.getElem?_map, hfi, Option.map_some']
      obtain ⟨hjl, hjel⟩ := List.getElem?_eq_some.mp hnj
      obtain ⟨hil, hiel⟩ := List.getElem?_eq_some.mp hni
      have h1 := List.indexOf_getElem hnodup j hjl
      have h2 := List.indexOf_getElem hnodup i hil
      rw [hjel] at h1
      rw [hiel] at h2
      omega
    have hlookup : ∀ (i pu : Nat) (v : Station), i < pu → all[pu]? = some v →
        ∃ su, (backwardPass all cpl)[pu]? = some su ∧ statFwd su = statFwd v ∧
          lookupLS (((backwardPass all cpl).drop (i + 1)).reverse) v.name =
            some su.latest_start := by
      intro i pu v hipu hv
      have hmm := map_statFwd_getElem? hmap pu
      rw [hv] at hmm
      cases hsu : (backwardPass all cpl)[pu]? with
      | none =>
        rw [hsu] at hmm
        simp at hmm
      | some su =>
        rw [hsu] at hmm
        simp only [Option.map_some'] at hmm
        have hstat : statFwd su = statFwd v := Option.some.inj hmm
        refine ⟨su, rfl, hstat, ?_⟩
        have hdropel : ((backwardPass all cpl).drop (i + 1))[pu - (i + 1)]? = some su := by
          rw [List.getElem?_drop, show i + 1 + (pu - (i + 1)) = pu from by omega]
          exact hsu
        have hsu_mem : su ∈ ((backwardPass all cpl).drop (i + 1)).reverse := by
          rw [List.mem_reverse]
          obtain ⟨hl, he⟩ := List.getElem?_eq_some.mp hdropel
          rw [← he]
          exact List.getElem_mem hl
        have hnodup_drop : NodupNames ((backwardPass all cpl).drop (i + 1)) := by
          have heq : namesOf ((backwardPass all cpl).drop (i + 1)) =
              (namesOf (backwardPass all cpl)).drop (i + 1) := by
            rw [namesOf, namesOf, List.map_drop]
          rw [NodupNames, heq]
          exact List.Nodup.sublist (List.drop_sublist _ _) hnodup'
        have hnodup_acc : NodupNames (((backwardPass all cpl).drop (i + 1)).reverse) := by
          have heq : namesOf (((backwardPass all cpl).drop (i + 1)).reverse) =
              (namesOf ((backwardPass all cpl).drop (i + 1))).reverse := by
            rw [namesOf, namesOf, List.map_reverse]
          rw [NodupNames, heq]
          exact List.nodup_reverse.mpr hnodup_drop
        have hname : su.name = v.name := (statFwd_fields hstat).1
        have hfind := findStation_eq_some_of_mem hnodup_acc hsu_mem
        rw [hname] at hfind
        rw [lookupLS, hfind]
        rfl
    intro t ht
    obtain ⟨i, hti⟩ := List.mem_iff_getElem?.mp ht
    obtain ⟨fi, hfi, htEq⟩ := hdecomp i t hti
    have htname : t.name = fi.name := by rw [htEq, bwdMk_name]
    have hsuccessor_transfer : ∀ u ∈ backwardPass all cpl,
        u.predecessor_name = some t.name →
        ∃ uf ∈ successorsOf all fi.name,
          (lookupLS (((backwardPass all cpl).drop (i + 1)).reverse) uf.name).getD 0 =
            u.latest_start := by
      intro u hu hupred
      obtain ⟨pu, hpu⟩ := List.mem_iff_getElem?.mp hu
      have hmm := map_statFwd_getElem? hmap pu
      rw [hpu] at hmm
      cases huf : all[pu]? with
      | none =>
        rw [huf] at hmm
        simp at hmm
      | some uf =>
        rw [huf] at hmm
        simp only [Option.map_some'] at hmm
        have hstat : statFwd u = statFwd uf := Option.some.inj hmm
        have hufpred : uf.predecessor_name = some fi.name := by
          rw [← (statFwd_fields hstat).2.2.1, hupred, htname]
        have hipu : i < pu := hsucc_index i fi hfi pu uf huf hufpred
        obtain ⟨su, hsu, hsustat, hslook⟩ := hlookup i pu uf hipu huf
        have hsuu : su = u := Option.some.inj (hsu.symm.trans hpu)
        have hufmem : uf ∈ all := by
          obtain ⟨hl, he⟩ := List.getElem?_eq_some.mp huf
          rw [← he]
          exact List.getElem_mem hl
        refine ⟨uf, ?_, ?_⟩
        · rw [successorsOf, List.mem_filter]
          exact ⟨hufmem, by simp [hufpred]⟩
        · rw [hslook, Option.getD_some, hsuu]
    have hsucc_to_sched : ∀ v ∈ successorsOf all fi.name,
        ∃ sv ∈ backwardPass all cpl, sv.predecessor_name = some t.name ∧
          (lookupLS (((backwardPass all cpl).drop (i + 1)).reverse) v.name).getD 0 =
            sv.latest_start := by
      intro v hvsucc
      rw [successorsOf, List.mem_filter] at hvsucc
      obtain ⟨hvall, hvdec⟩ := hvsucc
      have hvpred : v.predecessor_name = some fi.name := by simpa using hvdec
      obtain ⟨pv, hpv⟩ := List.mem_iff_getElem?.mp hvall
      have hipv : i < pv := hsucc_index i fi hfi pv v hpv hvpred
      obtain ⟨sv, hsv, hsvstat, hsvlook⟩ := hlookup i pv v hipv hpv
      refine ⟨sv, ?_, ?_, ?_⟩
      · obtain ⟨hl, he⟩ := List.getElem?_eq_some.mp hsv
        rw [← he]
        exact List.getElem_mem hl
      · rw [(statFwd_fields hsvstat).2.2.1, hvpred, htname]
      · rw [hsvlook, Option.getD_some]
    refine ⟨?_, ?_, ?_⟩
    · -- no successors: latest_finish = critical path length
      intro hnos
      have hempty : successorsOf all fi.name = [] := by
        rw [successorsOf, List.filter_eq_nil_iff]
        intro v hvall hdec
        simp only [decide_eq_true_eq] at hdec
        obtain ⟨v', hv'mem, hv'stat⟩ := mem_lift_statFwd hmap hvall
        have hvpred : v'.predecessor_name = v.predecessor_name :=
          (statFwd_fields hv'stat).2.2.1
        apply hnos v' hv'mem
        rw [hvpred, hdec, htname]
      have hlf := bwdMk_lf_nil all cpl
        (((backwardPass all cpl).drop (i + 1)).reverse) fi hempty
      rw [← htEq] at hlf
      exact hlf
    · -- every successor bounds latest_finish from above
      intro u hu hupred
      obtain ⟨uf, hufsucc, hfuf⟩ := hsuccessor_transfer u hu hupred
      cases hsl : successorsOf all fi.name with
      | nil =>
        rw [hsl] at hufsucc
        simp at hufsucc
      | cons t₀ ts =>
        have hlf := bwdMk_lf_cons all cpl
          (((backwardPass all cpl).drop (i + 1)).reverse) fi t₀ ts hsl
        rw [← htEq] at hlf
        rw [hlf, ← hfuf]
        rw [hsl] at hufsucc
        rcases List.mem_cons.mp hufsucc with rfl | hin
        · exact foldl_min_le _ _
        · exact foldl_min_le_mem _ _ _ (List.mem_map_of_mem _ hin)
    · -- some successor attains latest_finish
      rintro ⟨u, hu, hupred⟩
      obtain ⟨uf, hufsucc, _⟩ := hsuccessor_transfer u hu hupred
      cases hsl : successorsOf all fi.name with
      | nil =>
        rw [hsl] at hufsucc
        simp at hufsucc
      | cons t₀ ts =>
        have hlf := bwdMk_lf_cons all cpl
          (((backwardPass all cpl).drop (i + 1)).reverse) fi t₀ ts hsl
        rw [← htEq] at hlf
        rcases foldl_min_eq_or_mem
            (ts.map (fun u => (lookupLS (((backwardPass all cpl).drop (i + 1)).reverse)
              u.name).getD 0))
            ((lookupLS (((backwardPass all cpl).drop (i + 1)).reverse) t₀.name).getD 0)
            with hcase | hcase
        · obtain ⟨sv, hsvmem, hsvpred, hsvval⟩ := hsucc_to_sched t₀
            (by rw [hsl]; exact List.mem_cons_self _ _)
          exact ⟨sv, hsvmem, hsvpred, by rw [hlf, hcase, hsvval]⟩
        · obtain ⟨v, hvts, hveq⟩ := List.mem_map.mp hcase
          obtain ⟨sv, hsvmem, hsvpred, hsvval⟩ := hsucc_to_sched v
            (by rw [hsl]; exact List.mem_cons_of_mem _ hvts)
          exact ⟨sv, hsvmem, hsvpred, by rw [hlf, ← hveq, hsvval]⟩

/-- C3: after the backward pass of `schedule`, every station with no
successors has `latest_finish` equal to `critical_path_length`; every other
station has `latest_finish` equal to the minimum `latest_start` among its
successors; and every station has
`latest_start = latest_finish - processing_time` and
`slack = latest_start - earliest_start`. -/
theorem schedule_backward_pass_correct (order : List Station) (hv : ValidOrder order) :
    (∀ t ∈ (schedule ⟨order⟩).stations,
      t.latest_start = t.latest_finish - t.processing_time ∧
      t.slack = t.latest_start - t.earliest_start) ∧
    (∀ t ∈ (schedule ⟨order⟩).stations,
      ((∀ u ∈ (schedule ⟨order⟩).stations, u.predecessor_name ≠ some t.name) →
        t.latest_finish = (schedule ⟨order⟩).critical_path_length) ∧
      (∀ u ∈ (schedule ⟨order⟩).stations, u.predecessor_name = some t.name →
        t.latest_finish ≤ u.latest_start) ∧
      ((∃ u ∈ (schedule ⟨order⟩).stations, u.predecessor_name = some t.name) →
        ∃ u ∈ (schedule ⟨order⟩).stations, u.predecessor_name = some t.name ∧
          t.latest_finish = u.latest_start)) := by
  obtain ⟨hnodup, hpos, htopo⟩ := hv
  have hpre := forwardPass_map_statPre order
  have hnodupf : NodupNames (forwardPass order) := nodupNames_of_map_statPre hpre hnodup
  have htopof : TopoSorted (forwardPass order) := topoSorted_of_map_statPre hpre htopo
  exact backwardPass_spec (forwardPass order) (criticalPathLength (forwardPass order))
    hnodupf htopof

/-- Witness for C3: the backward-pass equations instantiated at the
concrete two-station chain. -/
theorem schedule_backward_pass_correct_witness :
    (∀ t ∈ (schedule ⟨twoChain⟩).stations,
      t.latest_start = t.latest_finish - t.processing_time ∧
      t.slack = t.latest_start - t.earliest_start) ∧
    (∀ t ∈ (schedule ⟨twoChain⟩).stations,
      ((∀ u ∈ (schedule ⟨twoChain⟩).stations, u.predecessor_name ≠ some t.name) →
        t.latest_finish = (schedule ⟨twoChain⟩).critical_path_length) ∧
      (∀ u ∈ (schedule ⟨twoChain⟩).stations, u.predecessor_name = some t.name →
        t.latest_finish ≤ u.latest_start) ∧
      ((∃ u ∈ (schedule ⟨twoChain⟩).stations, u.predecessor_name = some t.name) →
        ∃ u ∈ (schedule ⟨twoChain⟩).stations, u.predecessor_name = some t.name ∧
          t.latest_finish = u.latest_start)) :=
  schedule_backward_pass_correct twoChain validOrder_twoChain

theorem allDistinct_nodup : ∀ {l : List String}, allDistinct l = true → l.Nodup := by
  intro l
  induction l with
  | nil => intro _; exact List.nodup_nil
  | cons x xs ih =>
    intro h
    rw [allDistinct, Bool.and_eq_true] at h
    refine List.nodup_cons.mpr ⟨?_, ih h.2⟩
    intro hmem
    have : xs.contains x = true := by simpa using hmem
    rw [this] at h
    simp at h

theorem validate_nodup {raw : List Station} (h : validateStations raw = true) :
    NodupNames raw := by
  rw [validateStations, Bool.and_eq_true] at h
  have h2 := allDistinct_nodup h.2
  have h3 : raw.map (fun s => s.name.toLower) =
      (namesOf raw).map (fun n => n.toLower) := by
    rw [namesOf, List.map_map]
    rfl
  rw [h3] at h2
  exact List.Nodup.of_map _ h2

theorem isReady_some (done : List String) (s : Station) (p : String)
    (h : s.predecessor_name = some p) : isReady done s = done.contains p := by
  simp only [isReady, h]

theorem kahnAux_sound : ∀ (fuel : Nat) (pending : List Station) (done : List String)
    (out : List Station), kahnAux fuel pending done = some out →
    out.Perm pending ∧
    (∀ (i : Nat) (p : String) (s : Station), out[i]? = some s →
      s.predecessor_name = some p →
      p ∈ done ∨ ∃ (j : Nat) (s' : Station), j < i ∧ out[j]? = some s' ∧ s'.name = p) := by
  intro fuel
  induction fuel with
  | zero =>
    intro pending done out h
    rw [kahnAux] at h
    by_cases hp : pending.isEmpty
    · rw [if_pos hp] at h
      have hout : out = [] := (Option.some.inj h).symm
      subst hout
      refine ⟨by rw [List.isEmpty_iff.mp hp], ?_⟩
      intro i p s hs _
      rw [List.getElem?_eq_none (by simp)] at hs
      exact Option.noConfusion hs
    · rw [if_neg hp] at h
      exact Option.noConfusion h
  | succ fuel ih =>
    intro pending done out h
    rw [kahnAux] at h
    by_cases hp : pending.isEmpty
    · rw [if_pos hp] at h
      have hout : out = [] := (Option.some.inj h).symm
      subst hout
      refine ⟨by rw [List.isEmpty_iff.mp hp], ?_⟩
      intro i p s hs _
      rw [List.getElem?_eq_none (by simp)] at hs
      exact Option.noConfusion hs
    · rw [if_neg hp] at h
      by_cases hr : (pending.filter (isReady done)).isEmpty
      · rw [if_pos hr] at h
        exact Option.noConfusion h
      · rw [if_neg hr] at h
        cases hrec : kahnAux fuel (pending.filter (fun s => !isReady done s))
            (done ++ (pending.filter (isReady done)).map (fun s => s.name)) with
        | none =>
          rw [hrec] at h
          exact Option.noConfusion h
        | some rest =>
          rw [hrec] at h
          have hout : out = pending.filter (isReady done) ++ rest :=
            (Option.some.inj h).symm
          obtain ⟨hperm_rest, htopo_rest⟩ := ih _ _ _ hrec
          subst hout
          constructor
          · exact (List.Perm.append_left _ hperm_rest).trans
              (List.filter_append_perm _ pending)
          · intro i p s hs hpred
            by_cases hi : i < (pending.filter (isReady done)).length
            · rw [List.getElem?_append, if_pos hi] at hs
              left
              obtain ⟨hilt, hiel⟩ := List.getElem?_eq_some.mp hs
              have hmem : s ∈ pending.filter (isReady done) := by
                rw [← hiel]
                exact List.getElem_mem hilt
              have hready := List.of_mem_filter hmem
              rw [isReady_some done s p hpred] at hready
              simpa using hready
            · rw [List.getElem?_append, if_neg hi] at hs
              rcases htopo_rest (i - (pending.filter (isReady done)).length) p s hs
                  hpred with hdone | ⟨j, s', hj, hjs, hjn⟩
              · rcases List.mem_append.mp hdone with h1 | h2
                · exact Or.inl h1
                · right
                  obtain ⟨u, hu, hun⟩ := List.mem_map.mp h2
                  obtain ⟨j0, hj0lt, hj0⟩ := List.getElem_of_mem hu
                  refine ⟨j0, u, by omega, ?_, hun⟩
                  rw [List.getElem?_append, if_pos hj0lt,
                    List.getElem?_eq_getElem hj0lt, hj0]
              · right
                refine ⟨(pending.filter (isReady done)).length + j, s', by omega, ?_, hjn⟩
                rw [List.getElem?_append, if_neg (by omega),
                  show (pending.filter (isReady done)).length + j -
                    (pending.filter (isReady done)).length = j from by omega]
                exact hjs

theorem build_ok_sound {raw : List Station} {g : StationGraph}
    (h : build raw = Except.ok g) :
    validateStations raw = true ∧ g.stations.Perm raw ∧ TopoSorted g.stations := by
  rw [build] at h
  by_cases hv : validateStations raw
  · rw [if_pos hv] at h
    cases hk : kahnAux raw.length raw [] with
    | none =>
      rw [hk] at h
      exact Except.noConfusion h
    | some order =>
      rw [hk] at h
      have hg : g = ⟨order⟩ := (Except.ok.inj h).symm
      subst hg
      obtain ⟨hperm, htopo⟩ := kahnAux_sound _ _ _ _ hk
      refine ⟨hv, hperm, ?_⟩
      intro i p s hs hpred
      rcases htopo i p s hs hpred with hdone | hex
      · simp at hdone
      · exact hex
  · rw [if_neg hv] at h
    exact Except.noConfusion h

/-- C4: for every raw station set whose predecessor references form a
cycle, `build` produces no graph; and whenever such a set passes field
validation (as the spec's A↔B example does), `build` fails precisely with
`CycleDetected`.  `build` is a total function, so it never loops. -/
theorem build_rejects_cycles (raw : List Station) (hc : hasCycle raw) :
    (∀ g, build raw ≠ Except.ok g) ∧
    (validateStations raw = true → build raw = Except.error BuildError.CycleDetected) := by
  have hno : ∀ g, build raw ≠ Except.ok g := by
    intro g hok
    obtain ⟨hval, hperm, htopo⟩ := build_ok_sound hok
    have hnodupraw : NodupNames raw := validate_nodup hval
    have hnamesperm : (namesOf g.stations).Perm (namesOf raw) :=
      hperm.map (fun s : Station => s.name)
    have hnodup : (namesOf g.stations).Nodup := hnamesperm.nodup_iff.mpr hnodupraw
    have hstep : ∀ n q, n ∈ namesOf g.stations → predStep raw n = some q →
        q ∈ namesOf g.stations ∧
          (namesOf g.stations).indexOf q < (namesOf g.stations).indexOf n := by
      intro n q hn hq
      rw [predStep] at hq
      cases hf : findStation n raw with
      | none =>
        rw [hf] at hq
        exact Option.noConfusion hq
      | some t =>
        rw [hf, Option.some_bind] at hq
        obtain ⟨htraw, htname⟩ := findStation_mem hf
        have htorder : t ∈ g.stations := hperm.mem_iff.mpr htraw
        obtain ⟨i, hilt, hieq⟩ := List.getElem_of_mem htorder
        have hs_at : g.stations[i]? = some t := by
          rw [List.getElem?_eq_getElem hilt, hieq]
        obtain ⟨j, s', hji, hjs, hjname⟩ := htopo i q t hs_at hq
        have hnj : (namesOf g.stations)[j]? = some q := by
          show (g.stations.map (fun s => s.name))[j]? = some q
          rw [List.getElem?_map, hjs, Option.map_some', hjname]
        have hni : (namesOf g.stations)[i]? = some n := by
          show (g.stations.map (fun s => s.name))[i]? = some n
          rw [List.getElem?_map, List.getElem?_eq_getElem hilt, hieq,
            Option.map_some', htname]
        obtain ⟨hjlt, hjel⟩ := List.getElem?_eq_some.mp hnj
        obtain ⟨hilt', hiel⟩ := List.getElem?_eq_some.mp hni
        have hidxq : (namesOf g.stations).indexOf q = j := by
          rw [← hjel]
          exact List.indexOf_getElem hnodup j hjlt
        have hidxn : (namesOf g.stations).indexOf n = i := by
          rw [← hiel]
          exact List.indexOf_getElem hnodup i hilt'
        refine ⟨?_, by omega⟩
        rw [← hjel]
        exact List.getElem_mem hjlt
    have hchain : ∀ (m : Nat) (n q : String), n ∈ namesOf g.stations →
        predIterate raw m n = some q →
        q ∈ namesOf g.stations ∧
          (namesOf g.stations).indexOf q + m ≤ (namesOf g.stations).indexOf n := by
      intro m
      induction m with
      | zero =>
        intro n q hn hq
        rw [predIterate] at hq
        have : n = q := Option.some.inj hq
        subst this
        exact ⟨hn, by omega⟩
      | succ m ihm =>
        intro n q hn hq
        rw [predIterate] at hq
        cases hps : predStep raw n with
        | none =>
          rw [hps] at hq
          exact Option.noConfusion hq
        | some r =>
          rw [hps, Option.some_bind] at hq
          obtain ⟨hr, hlt⟩ := hstep n r hn hps
          obtain ⟨hq', hle⟩ := ihm r q hr hq
          exact ⟨hq', by omega⟩
    obtain ⟨s, hsraw, k, hk, hiter⟩ := hc
    have hsname : s.name ∈ namesOf g.stations := mem_namesOf (hperm.mem_iff.mpr hsraw)
    obtain ⟨_, habs⟩ := hchain (k + 1) s.name s.name hsname hiter
    omega
  refine ⟨hno, ?_⟩
  intro hval
  rw [build, if_pos hval]
  cases hk : kahnAux raw.length raw [] with
  | none => rfl
  | some order =>
    exfalso
    exact hno ⟨order⟩ (by rw [build, if_pos hval, hk])

/-- Witness for C4: the spec's concrete A↔B cycle is rejected with
`CycleDetected` and never yields a graph. -/
theorem build_rejects_cycles_witness :
    (∀ g, build cyclePair ≠ Except.ok g) ∧
    build cyclePair = Except.error BuildError.CycleDetected :=
  ⟨(build_rejects_cycles cyclePair (by with_unfolding_all decide)).1,
   (build_rejects_cycles cyclePair (by with_unfolding_all decide)).2
     (by with_unfolding_all decide)⟩

set_option maxRecDepth 20000 in
/-- C6 counterexample: on the spec's concrete five-station chain with
`units_to_produce = 100`, the pipeline yields
`efficiency_percent = (2+3+5+4+1.5)/(5*5)*100 = 62.0`, not the claimed
`61.0`. -/
theorem demo_pipeline_counterexample :
    build demoStations = Except.ok ⟨demoStations⟩ ∧
    (analyze (schedule ⟨demoStations⟩) 100).efficiency_percent = 62 ∧
    ¬(analyze (schedule ⟨demoStations⟩) 100).efficiency_percent = 61 := by
  with_unfolding_all decide

set_option maxRecDepth 20000 in
/-- C6 (amended): the concrete five-station chain Cut(2), Bend(3, Cut),
Assemble(5, Bend), Paint(4, Assemble), Pack(1.5, Paint) with
`units_to_produce = 100` yields earliest start/finish pairs
`[0,2], [2,5], [5,10], [10,14], [14,15.5]`, `critical_path_length = 15.5`
with all five stations critical, bottleneck `Assemble` with
`cycle_time = 5.0`, `production_rate = 12.0`,
`estimated_total_time = 510.5`, and `efficiency_percent = 62.0` (not 61.0:
the spec's own formula gives 15.5/25*100 = 62). -/
theorem demo_pipeline_correct :
    build demoStations = Except.ok ⟨demoStations⟩ ∧
    (schedule ⟨demoStations⟩).stations.map
        (fun s => (s.earliest_start, s.earliest_finish)) =
      [(0, 2), (2, 5), (5, 10), (10, 14), (14, 15.5)] ∧
    (schedule ⟨demoStations⟩).critical_path_length = 15.5 ∧
    (schedule ⟨demoStations⟩).critical_station_names =
      ["Assemble", "Bend", "Cut", "Pack", "Paint"] ∧
    (analyze (schedule ⟨demoStations⟩) 100).bottleneck_name = "Assemble" ∧
    (analyze (schedule ⟨demoStations⟩) 100).cycle_time = 5 ∧
    (analyze (schedule ⟨demoStations⟩) 100).production_rate = 12 ∧
    (analyze (schedule ⟨demoStations⟩) 100).estimated_total_time = 510.5 ∧
    (analyze (schedule ⟨demoStations⟩) 100).efficiency_percent = 62 := by
  with_unfolding_all decide

/-- Witness for C1: the forward-pass equations instantiated at the concrete
two-station chain. -/
theorem schedule_forward_pass_correct_witness :
    (∀ (i : Nat) (t : Station), (schedule ⟨twoChain⟩).stations[i]? = some t →
      t.earliest_finish = t.earliest_start + t.processing_time ∧
      (t.predecessor_name = none → t.earliest_start = 0) ∧
      (∀ p, t.predecessor_name = some p →
        ∃ u ∈ (schedule ⟨twoChain⟩).stations, u.name = p ∧
          t.earliest_start = u.earliest_finish)) ∧
    (∀ t ∈ (schedule ⟨twoChain⟩).stations,
      t.earliest_finish ≤ (schedule ⟨twoChain⟩).critical_path_length) ∧
    (twoChain ≠ [] → ∃ t ∈ (schedule ⟨twoChain⟩).stations,
      (schedule ⟨twoChain⟩).critical_path_length = t.earliest_finish) ∧
    (twoChain = [] → (schedule ⟨twoChain⟩).critical_path_length = 0 ∧
      (schedule ⟨twoChain⟩).critical_station_names = []) :=
  schedule_forward_pass_correct twoChain validOrder_twoChain

end LineCore

namespace SaludIA

theorem isoformatUTC_ne_empty (t : UTCTime) : isoformatUTC t ≠ "" := by
  intro h
  have hl : (isoformatUTC t).length = 0 := by rw [h]; rfl
  rw [isoformatUTC] at hl
  simp only [String.length_append] at hl
  have h6 : ("+00:00" : String).length = 6 := rfl
  omega

theorem dictSet_mem (d : FSDoc) (k : String) (v : FSValue) : (k, v) ∈ dictSet d k v := by
  rw [dictSet]
  split
  · next h =>
    rw [List.any_eq_true] at h
    obtain ⟨p, hp, hpk⟩ := h
    rw [List.mem_map]
    refine ⟨p, hp, ?_⟩
    simp only [decide_eq_true_eq] at hpk
    simp [hpk]
  · exact List.mem_append_right _ (List.mem_singleton.mpr rfl)

theorem find?_append_singleton {α : Type} (p : α → Bool) (l : List α) (x : α)
    (h : ∀ a ∈ l, ¬p a = true) (hx : p x = true) :
    (l ++ [x]).find? p = some x := by
  rw [List.find?_append, List.find?_eq_none.mpr h]
  simp [List.find?, hx]

theorem fsGet_fsSet (fs : Firestore) (path : List String) (d : FSDoc) :
    fsGet (fsSet fs path d) path = some d := by
  rw [fsGet, fsSet]
  rw [find?_append_singleton]
  · rfl
  · intro e he
    have := List.of_mem_filter he
    simpa using this
  · simp

/-- C8: when the Firestore client failed to initialize (the module-level
`DB` is `None`), the data-access operations return benign defaults instead
of raising: `get_physician_patients` returns the empty list,
`save_consultation` returns `None` and writes nothing, and
`load_patient_history` returns an empty DataFrame (modelled as the empty
record list). -/
theorem db_none_benign_defaults (now : UTCTime) (email pid : String) (data : FSDoc) :
    get_physician_patients none email = [] ∧
    save_consultation none now email pid data = (none, none) ∧
    load_patient_history none email pid = [] :=
  ⟨rfl, rfl, rfl⟩

/-- C9: `save_consultation` on a live database writes a document containing
no `None` and no empty-string value, always containing the key
`timestamp_utc`, and returns the UTC creation timestamp formatted as
`%Y-%m-%d_%H-%M-%S` as the document id. -/
theorem save_consultation_clean_write (fs : Firestore) (now : UTCTime)
    (email pid : String) (data : FSDoc) :
    ∃ fs' doc,
      save_consultation (some fs) now email pid data = (some fs', some (strftimeId now)) ∧
      fsGet fs' (consultationsPath email pid ++ [strftimeId now]) = some doc ∧
      (∀ p ∈ doc, p.2 ≠ FSValue.null ∧ p.2 ≠ FSValue.str "") ∧
      "timestamp_utc" ∈ doc.map Prod.fst := by
  rw [save_consultation]
  refine ⟨_, _, rfl, fsGet_fsSet _ _ _, ?_, ?_⟩
  · intro p hp
    have hkeep := List.of_mem_filter hp
    simp only [Bool.not_eq_eq_eq_not, Bool.not_true] at hkeep
    constructor
    · intro hnull; rw [hnull] at hkeep; simp [isDropped] at hkeep
    · intro hstr; rw [hstr] at hkeep; simp [isDropped] at hkeep
  · rw [List.mem_map]
    refine ⟨("timestamp_utc", FSValue.str (isoformatUTC now)), ?_, rfl⟩
    rw [List.mem_filter]
    refine ⟨dictSet_mem _ _ _, ?_⟩
    simp [isDropped, isoformatUTC_ne_empty now]

/-- C10: constructing `GeminiUtils` raises `ValueError` exactly when the
`gemini_api_key` Streamlit secret is absent or empty, and in that case the
constructor performs no API configuration and no model selection: the
`genai` module state is returned untouched. -/
theorem gemini_init_valueError_iff (secret : Option String) (g : GenaiState) :
    ((GeminiUtils_init secret g).1 = Except.error GeminiError.valueError ↔
      (secret = none ∨ secret = some "")) ∧
    ((secret = none ∨ secret = some "") → (GeminiUtils_init secret g).2 = g) := by
  cases secret with
  | none => simp [GeminiUtils_init]
  | some key =>
    by_cases hk : key = ""
    · subst hk
      simp [GeminiUtils_init]
    · constructor
      · constructor
        · intro h
          exfalso
          rw [GeminiUtils_init] at h
          simp only [if_neg hk] at h
          revert h
          cases hm : get_available_model { g with configuredKey := some key } <;> simp
        · intro h
          rcases h with h | h
          · exact absurd h (by simp)
          · exact absurd h (by simp [hk])
      · intro h
        rcases h with h | h
        · exact absurd h (by simp)
        · exact absurd h (by simp [hk])

/-- Witness for C10 at a concrete input: with the secret absent and a
concrete `genai` state, the constructor raises `ValueError` and leaves the
state untouched. -/
theorem gemini_init_valueError_iff_witness :
    (GeminiUtils_init none demoGenai).1 = Except.error GeminiError.valueError ∧
    (GeminiUtils_init none demoGenai).2 = demoGenai :=
  ⟨(gemini_init_valueError_iff none demoGenai).1.mpr (Or.inl rfl),
   (gemini_init_valueError_iff none demoGenai).2 (Or.inl rfl)⟩

end SaludIA
